import Mathlib

/-!
# Bidirectional association index (`associated_collection`)

A shallow embedding of `inc/associated_collection.hpp` and of the helpers of
`inc/container_algo.hpp` it calls, followed by theorems about them.

Modelling conventions.

* The key types are tuples in the source (`erase(inverse_foreign_type const&)` reads
  `std::get<1>` of a key). The keys of one index are taken to be the tuples `(c, n)`
  with one first component `c` for all of them, and such a key is written as the
  number `n`: its place in the key order and its second component are both `n`
  (`key_tuple`). So `key_type` and `foreign_key_type` are `Nat`, and so is the
  mapped type of `contributors_`; an entry of the association table
  (`avalue_type`) is a pair `Nat × Nat`, key first. An `Element` carries its `key`
  and a payload; `operator==` and `operator<` of an element look at the key only,
  as in `src/main.cpp`.
* Every flat container is the list of its underlying vector, in storage order:
  `flat_set<Element>` is `List Element`, `flat_multimap<Key, Foreign_key>` is
  `List (Nat × Nat)`.
* The standard algorithms are written out as the loops they run. A callback that
  changes the object while the algorithm runs is a function on the object state.
  `std::sort` is the one of libstdc++: the insertion sort on a range of at most
  sixteen elements, and on a longer range an algorithm whose loops carry no bound
  check, so that the call has a result (`some`) only for a comparison that is a
  valid ordering of the range; `calgo.sort`, and with it delete-by-association-set
  and a sequence of calls, yield `none` otherwise.
* The Boost containers are taken by their documented contracts: `equal_range(k)` is
  the run of the entries of key `k`, `count(k)` is their number, `insert` puts a
  value that is not yet stored at its sorted place. A `flat_multimap` is ordered by
  key in every state the class leaves it in; the one place where a member function
  is called on a table that is being rewritten is the `count` inside the scan of
  `erase(inverse_foreign_type const&)`, and `scan_buffer_count_one` shows that its
  answer to "is the count one?" is the answer the table gave before the call.
* The insertions (`emplace` into the store, `emplace` into the table) run the binary
  search of the flat containers, `flat_tree.bound_loop`, on the vector as it is, so
  that an insert into a store that is out of order does what the search does.
-/

/-- An element exposing its own key (`struct dog`, `struct cat`), with some payload. -/
structure Element where
  key : Nat
  payload : Nat
  deriving DecidableEq, Repr

/-- The state of one `associated_collection`: its five data members. -/
structure associated_collection where
  collection_ : List Element
  associations_ : List (Nat × Nat)
  contributors_ : List (Nat × Nat)
  keys_ : List Nat
  foreign_keys_ : List (Nat × Nat)
  deriving DecidableEq, Repr

namespace calgo

/-- `calgo::equals_one`: `t == T{1}`. -/
def equals_one (t : Nat) : Bool := t == 1

/-- `calgo::value`: `std::get<1>`. -/
def value {α β : Type} (val : α × β) : β := val.2

/-- `calgo::key`: `std::get<0>`. -/
def key {α β : Type} (val : α × β) : α := val.1

/-- `calgo::reverse`: the pair with its components swapped. -/
def reverse {α β : Type} (t : α × β) : β × α := (t.2, t.1)

/-- `calgo::contains`: `std::find` over the container does not reach `end`. -/
def contains {α : Type} [DecidableEq α] (container : List α) (value : α) : Bool :=
  match container with
  | [] => false
  | x :: rest => if x = value then true else contains rest value

/-- The loop of `calgo::set_intersection` (the overload with `comp`), returning the
arguments `operation` is invoked on, in order. `comp12` is `comp` called as
`comp(*first1, *first2)` and `comp21` is `comp` called as `comp(*first2, *first1)`
(the two overloads of the `calgo::overload` object). Each iteration advances at
least one of the two iterators, so `fuel` bounds the iterations. -/
def set_intersection_loop {α β : Type} (comp12 : α → β → Bool) (comp21 : β → α → Bool) :
    Nat → List α → List β → List α
  | 0, _, _ => []
  | _ + 1, [], _ => []
  | _ + 1, _ :: _, [] => []
  | fuel + 1, a :: rest1, b :: rest2 =>
    if comp12 a b then
      set_intersection_loop comp12 comp21 fuel rest1 (b :: rest2)
    else if !(comp21 b a) then
      a :: set_intersection_loop comp12 comp21 fuel rest1 rest2
    else
      set_intersection_loop comp12 comp21 fuel (a :: rest1) rest2

/-- `calgo::set_intersection(container, container2, operation, comp)`: the loop run
from `begin` to `end` of both containers; the two lengths together bound its
iterations. -/
def set_intersection {α β : Type} (container : List α) (container2 : List β)
    (comp12 : α → β → Bool) (comp21 : β → α → Bool) : List α :=
  set_intersection_loop comp12 comp21 (container.length + container2.length)
    container container2

/-- The loop of `std::remove_if` as called by `calgo::remove_if`, for a predicate
that reads and changes the surrounding object `σ`. While the loop runs the vector
keeps its length: it holds the elements kept so far (`kept`), then the slots
between the write position and the read position (`stale`, still holding their old
values, the element type being trivially copyable), then the element under test
and the elements not yet read. `put` stores that buffer into the object before the
predicate is called, so that the predicate sees the container as it is at that
moment. A kept element is moved to the write position, which overwrites the
first stale slot. -/
def remove_if_loop {σ α : Type} (put : List α → σ → σ) (predicate : σ → α → Bool × σ) :
    σ → List α → List α → List α → σ × List α
  | s, kept, _, [] => (s, kept)
  | s, kept, stale, x :: rest =>
    if (predicate (put (kept ++ stale ++ x :: rest) s) x).1 then
      remove_if_loop put predicate
        (predicate (put (kept ++ stale ++ x :: rest) s) x).2 kept (stale ++ [x]) rest
    else
      remove_if_loop put predicate
        (predicate (put (kept ++ stale ++ x :: rest) s) x).2 (kept ++ [x])
        (stale ++ [x]).tail rest

/-- `calgo::erase_if(container, predicate)`: `erase_to_end(container,
remove_if(container, predicate))`; the container is left holding the kept elements. -/
def erase_if {σ α : Type} (put : List α → σ → σ) (predicate : σ → α → Bool × σ)
    (s : σ) (container : List α) : σ :=
  put (remove_if_loop put predicate s [] [] container).2
    (remove_if_loop put predicate s [] [] container).1

/-- `calgo::erase_value(collection_, key)`: `std::remove` followed by
`erase_to_end`; an element is removed when `element == key`, which compares keys. -/
def erase_value (container : List Element) (value : Nat) : List Element :=
  container.filter (fun e => !(e.key == value))

/-- `calgo::equal_values`: `std::equal` over two ranges with the predicate
`value(a) == value(b)`: same length and pairwise equal mapped values. -/
def equal_values {α β : Type} [DecidableEq β] : List (α × β) → List (α × β) → Bool
  | [], [] => true
  | a :: rest1, b :: rest2 => decide (value a = value b) && equal_values rest1 rest2
  | _, _ => false

/-- One pass of the outer loop of the insertion sort `std::sort` runs on a short
range: `val` is the element at `i`, `sorted` the range before it. When
`comp(val, *first)` holds the range is shifted and `val` goes to the front;
otherwise `val` walks left from `i` past every element `x` with `comp(val, x)`. -/
def linear_insert {α : Type} (comp : α → α → Bool) (val : α) (sorted : List α) : List α :=
  match sorted with
  | [] => [val]
  | first :: _ =>
    if comp val first then val :: sorted
    else (sorted.reverse.dropWhile (comp val)).reverse ++
      val :: (sorted.reverse.takeWhile (comp val)).reverse

/-- The outer loop of the insertion sort: `sorted` is the range before `i`. -/
def insertion_sort {α : Type} (comp : α → α → Bool) : List α → List α → List α
  | sorted, [] => sorted
  | sorted, val :: rest => insertion_sort comp (linear_insert comp val sorted) rest

/-- Whether `comp` ranks the elements of a range apart: of two elements at different
positions exactly one precedes the other. -/
def ranks_apart {α : Type} (comp : α → α → Bool) : List α → Bool
  | [] => true
  | a :: rest => rest.all (fun b => comp a b != comp b a) && ranks_apart comp rest

/-- Whether `comp` is a valid ordering of the range without ties, as far as a sorting
algorithm can tell, which compares elements at different positions: it ranks the
elements apart and it is transitive on them. -/
def orders_strictly {α : Type} (comp : α → α → Bool) (range : List α) : Bool :=
  ranks_apart comp range &&
    range.all (fun a => range.all (fun b => range.all (fun c =>
      !(comp a b && comp b c) || comp a c)))

/-- `calgo::sort(container, binary_predicate)`: `std::sort` of libstdc++. On a range
of at most sixteen elements (`_S_threshold`) the partitioning loop is not entered
and the final pass is `__insertion_sort`, run here whatever the comparison
answers. On a longer range `__unguarded_partition` (the first step is
`unguarded_partition_pivot`) and `__unguarded_linear_insert` move through the
range with no bound check and stop where the comparison tells them to; a
comparison that orders the range strictly stops them inside the range, and the
result is then the one ascending arrangement of the elements, which the
insertion sort yields as well. In every other case a longer range has no result
here: with a comparison that holds both ways between two elements, or is not
transitive, the behaviour is undefined (the loops can leave the range); with a
tie the arrangement is not fixed by the ordering. The comparison handed over by
`associated_collection::erase` never ties. -/
def sort {α : Type} (container : List α) (binary_predicate : α → α → Bool) :
    Option (List α) :=
  if container.length ≤ 16 then some (insertion_sort binary_predicate [] container)
  else if orders_strictly binary_predicate container then
    some (insertion_sort binary_predicate [] container)
  else none

/-- `std::iter_swap(a, b)` for two positions of a range; `none` when a position is
outside the range. -/
def iter_swap {α : Type} (range : List α) (a b : Nat) : Option (List α) :=
  match range[a]?, range[b]? with
  | some x, some y => some ((range.set a y).set b x)
  | _, _ => none

/-- `std::__move_median_to_first(result, a, b, c, comp)` of libstdc++
(`bits/stl_algo.h`), on positions of a range: the median of the elements at `a`,
`b` and `c`, as `comp` sees them, is swapped with the element at `result`. -/
def move_median_to_first {α : Type} (comp : α → α → Bool) (range : List α)
    (result a b c : Nat) : Option (List α) :=
  match range[a]?, range[b]?, range[c]? with
  | some x, some y, some z =>
    if comp x y then
      if comp y z then iter_swap range result b
      else if comp x z then iter_swap range result c
      else iter_swap range result a
    else if comp x z then iter_swap range result a
    else if comp y z then iter_swap range result c
    else iter_swap range result b
  | _, _, _ => none

/-- The first inner loop of `std::__unguarded_partition`,
`while (comp(first, pivot)) ++first;`, with `rest` the elements from the position
`first` to the end of the range: the position at which the loop stops. The loop
has no bound check; `none` stands for its reading `*end()`. -/
def unguarded_partition_up {α : Type} (comp : α → α → Bool) (pivot : α) :
    List α → Nat → Option Nat
  | [], _ => none
  | x :: rest, first =>
    if comp x pivot then unguarded_partition_up comp pivot rest (first + 1) else some first

/-- The second inner loop of `std::__unguarded_partition`,
`while (comp(pivot, last)) --last;`, started at the position `last`: the position
at which the loop stops. The loop has no bound check; `none` stands for its
reading a position before the first one of the range, or behind the last one. -/
def unguarded_partition_down {α : Type} (comp : α → α → Bool) (range : List α) (pivot : α) :
    Nat → Option Nat
  | 0 =>
    match range[0]? with
    | none => none
    | some x => if comp pivot x then none else some 0
  | last + 1 =>
    match range[last + 1]? with
    | none => none
    | some x =>
      if comp pivot x then unguarded_partition_down comp range pivot last else some (last + 1)

/-- `std::__unguarded_partition(first, last, pivot, comp)` of libstdc++, on positions
of a range: the cut position and the range as the swaps leave it; `none` when one
of the two inner loops leaves the range. Every pass of the outer loop moves
`first` up by one position at least, so `fuel` bounds the passes. -/
def unguarded_partition {α : Type} (comp : α → α → Bool) (pivot : Nat) :
    Nat → List α → Nat → Nat → Option (Nat × List α)
  | 0, _, _, _ => none
  | fuel + 1, range, first, last =>
    match range[pivot]? with
    | none => none
    | some p =>
      match unguarded_partition_up comp p (range.drop first) first with
      | none => none
      | some first_stop =>
        if last = 0 then none
        else
          match unguarded_partition_down comp range p (last - 1) with
          | none => none
          | some last_stop =>
            if first_stop < last_stop then
              match iter_swap range first_stop last_stop with
              | none => none
              | some swapped =>
                unguarded_partition comp pivot fuel swapped (first_stop + 1) last_stop
            else some (first_stop, range)

/-- `std::__unguarded_partition_pivot(first, last, comp)` of libstdc++ on a whole
range, which is the first thing `std::sort` does with a range of more than sixteen
elements: the median of the elements at `first + 1`, in the middle and at
`last - 1` goes to `first` and is the pivot of `__unguarded_partition(first + 1,
last, first, comp)`. -/
def unguarded_partition_pivot {α : Type} (comp : α → α → Bool) (range : List α) :
    Option (Nat × List α) :=
  match move_median_to_first comp range 0 1 (range.length / 2) (range.length - 1) with
  | none => none
  | some swapped => unguarded_partition comp 0 range.length swapped 1 range.length

/-- The loop of `std::unique` as called by `calgo::unique_if`, for a predicate that
changes the surrounding object `σ`: `dest` is the last element kept, and the
predicate is called as `predicate(*dest, *first)` on every later element. -/
def unique_loop {σ α : Type} (predicate : σ → α → α → Bool × σ) :
    σ → List α → α → List α → σ × List α
  | s, kept, _, [] => (s, kept)
  | s, kept, dest, x :: rest =>
    if (predicate s dest x).1 then
      unique_loop predicate (predicate s dest x).2 kept dest rest
    else
      unique_loop predicate (predicate s dest x).2 (kept ++ [x]) x rest

/-- `calgo::erase_duplicates_if(container, predicate)`: `erase_to_end(container,
unique_if(container, predicate))`. -/
def erase_duplicates_if {σ α : Type} (put : List α → σ → σ)
    (predicate : σ → α → α → Bool × σ) (s : σ) (container : List α) : σ :=
  match container with
  | [] => put [] s
  | first :: rest =>
    put (unique_loop predicate s [first] first rest).2
      (unique_loop predicate s [first] first rest).1

end calgo

/-! ### The Boost flat containers, by their documented contracts -/

namespace flat_set

/-- `operator<` of `std::pair`: lexicographic. -/
def pair_less (a b : Nat × Nat) : Bool :=
  decide (a.1 < b.1) || (!(decide (b.1 < a.1)) && decide (a.2 < b.2))

/-- `flat_set::insert(hint, value)`: nothing happens when an equal value is already
stored; otherwise the value is put at its sorted position. -/
def insert (container : List (Nat × Nat)) (value : Nat × Nat) : List (Nat × Nat) :=
  if value ∈ container then container
  else container.takeWhile (fun x => pair_less x value) ++
    value :: container.dropWhile (fun x => pair_less x value)

end flat_set

namespace flat_multimap

/-- `flat_multimap::equal_range(k)`: the run of the entries whose key is `k` (the
entries of a key are contiguous because the container is ordered by key). -/
def equal_range {β : Type} (container : List (Nat × β)) (k : Nat) : List (Nat × β) :=
  container.filter (fun entry => entry.1 == k)

/-- `flat_multimap::count(k)`: the length of `equal_range(k)`, that is the number of
entries of key `k`. -/
def count {β : Type} (container : List (Nat × β)) (k : Nat) : Nat :=
  (equal_range container k).length

/-- `flat_multimap::erase(first, last)` applied to the two ends of `equal_range(k)`:
the run of `k` is cut out, the other entries keep their order. -/
def erase_range {β : Type} (container : List (Nat × β)) (k : Nat) : List (Nat × β) :=
  container.filter (fun entry => !(entry.1 == k))

/-- `flat_multimap::erase(k)`: every entry of key `k` is removed. -/
def erase {β : Type} (container : List (Nat × β)) (k : Nat) : List (Nat × β) :=
  container.filter (fun entry => !(entry.1 == k))

end flat_multimap

namespace associated_collection

/-- The first lambda of `visit`: `comp(element a, association b)`. -/
def visit_comp12 (foreign_key : Nat) (a : Element) (b : Nat × Nat) : Bool :=
  if calgo.value b = foreign_key ∧ calgo.key b = a.key then false
  else decide (a.key < calgo.key b)

/-- The second lambda of `visit`: `comp(association b, element a)`. -/
def visit_comp21 (foreign_key : Nat) (b : Nat × Nat) (a : Element) : Bool :=
  if calgo.value b = foreign_key ∧ calgo.key b = a.key then false
  else !(decide (a.key < calgo.key b))

/-- `associated_collection::visit`: the elements `operation` is invoked on, in the
order of the invocations. -/
def visit (self : associated_collection) (foreign_key : Nat) : List Element :=
  calgo.set_intersection self.collection_ self.associations_
    (visit_comp12 foreign_key) (visit_comp21 foreign_key)

/-- Storing a new vector into `collection_`. -/
def put_collection (c : List Element) (self : associated_collection) :
    associated_collection :=
  { self with collection_ := c }

/-- Storing a new vector into `associations_`. -/
def put_associations (a : List (Nat × Nat)) (self : associated_collection) :
    associated_collection :=
  { self with associations_ := a }

/-- `associated_collection::compare_associations`. -/
def compare_associations (self : associated_collection) (a b : Nat) : Bool :=
  calgo.equal_values (flat_multimap.equal_range self.associations_ a)
    (flat_multimap.equal_range self.associations_ b)

/-- `associated_collection::inverse_assocations`: every entry of the range of `key`
is reversed and inserted into `foreign_keys_`; the range itself is returned too. -/
def inverse_assocations (self : associated_collection) (key : Nat) :
    associated_collection × List (Nat × Nat) :=
  ({ self with
      foreign_keys_ := (flat_multimap.equal_range self.associations_ key).foldl
        (fun out r => flat_set.insert out (calgo.reverse r)) self.foreign_keys_ },
    flat_multimap.equal_range self.associations_ key)

/-- The lambda the private `erase_if` hands to `calgo::erase_if`. -/
def erase_if_predicate (predicate : Element → Bool) (self : associated_collection)
    (element : Element) : Bool × associated_collection :=
  if predicate element then
    (true,
      { (inverse_assocations self element.key).1 with
        associations_ :=
          flat_multimap.erase_range (inverse_assocations self element.key).1.associations_
            element.key
        contributors_ :=
          flat_multimap.erase (inverse_assocations self element.key).1.contributors_
            element.key })
  else (false, self)

/-- The private `associated_collection::erase_if(predicate)`. The returned reference
is to `foreign_keys_` of the resulting state. -/
def erase_if (self : associated_collection) (predicate : Element → Bool) :
    associated_collection :=
  calgo.erase_if put_collection (erase_if_predicate predicate) self self.collection_

/-- `associated_collection::erase(key_type const&)`: delete-by-key. -/
def erase (self : associated_collection) (k : Nat) : associated_collection :=
  erase_if self (fun e => e.key == k)

/-- The lambda of the first statement of `erase(inverse_foreign_type const&)`. -/
def erase_scan_predicate (set_of_assocations : List (Nat × Nat))
    (self : associated_collection) (value : Nat × Nat) : Bool × associated_collection :=
  if calgo.contains set_of_assocations value then
    if calgo.equals_one (flat_multimap.count self.associations_ value.1) then
      (true,
        { self with
          collection_ := calgo.erase_value self.collection_ value.1
          contributors_ := flat_multimap.erase self.contributors_ value.1 })
    else (true, self)
  else (false, self)

/-- The first statement of `erase(inverse_foreign_type const&)`: the scan of the
association table. -/
def erase_scan (self : associated_collection)
    (set_of_assocations : List (Nat × Nat)) : associated_collection :=
  calgo.erase_if put_associations (erase_scan_predicate set_of_assocations) self
    self.associations_

/-- The tuple a key stands for: the keys of an index are the tuples `(c, n)` of one
first component `c`, written `n`. -/
def key_tuple (key : Nat) : Nat × Nat := (0, key)

/-- The lambda handed to `calgo::sort` by `erase(inverse_foreign_type const&)`. -/
def erase_sort_predicate (self : associated_collection) (a b : Element) : Bool :=
  if compare_associations self a.key b.key then true
  else decide (calgo.value (key_tuple a.key) < calgo.value (key_tuple b.key))

/-- The second statement of `erase(inverse_foreign_type const&)`: the re-ordering
of the element store; no state follows when `calgo::sort` has no result. -/
def erase_reorder (self : associated_collection) : Option associated_collection :=
  match calgo.sort self.collection_ (erase_sort_predicate self) with
  | some sorted => some { self with collection_ := sorted }
  | none => none

/-- The lambda handed to `calgo::erase_duplicates_if` by
`erase(inverse_foreign_type const&)`. -/
def erase_collapse_predicate (self : associated_collection) (a b : Element) :
    Bool × associated_collection :=
  if compare_associations self a.key b.key then
    (true,
      { (inverse_assocations self b.key).1 with
        associations_ :=
          flat_multimap.erase_range (inverse_assocations self b.key).1.associations_ b.key
        contributors_ :=
          flat_multimap.erase (inverse_assocations self b.key).1.contributors_ b.key })
  else (false, self)

/-- The third statement of `erase(inverse_foreign_type const&)`: the collapse of
adjacent elements with equal association ranges. -/
def erase_collapse (self : associated_collection) : associated_collection :=
  calgo.erase_duplicates_if put_collection erase_collapse_predicate self self.collection_

/-- `associated_collection::erase(inverse_foreign_type const&)`:
delete-by-association-set: the scan, the re-ordering, the collapse. The returned
reference is to `foreign_keys_` of the resulting state. The call has no resulting
state when its `calgo::sort` has no result. -/
def erase_inverse_foreign (self : associated_collection)
    (set_of_assocations : List (Nat × Nat)) : Option associated_collection :=
  match erase_reorder (erase_scan self set_of_assocations) with
  | some reordered => some (erase_collapse reordered)
  | none => none

end associated_collection

/-! ### The conditions the index is used under -/

namespace associated_collection

/-- The element store is strictly ascending by key. -/
abbrev store_sorted (self : associated_collection) : Prop :=
  self.collection_.Pairwise (fun a b => a.key < b.key)

/-- I1: no two elements of the store have the same key. -/
abbrev unique_keys (self : associated_collection) : Prop :=
  self.collection_.Pairwise (fun a b => a.key ≠ b.key)

/-- The association table is ascending by key. -/
abbrev table_sorted_by_key (self : associated_collection) : Prop :=
  self.associations_.Pairwise (fun a b => a.1 ≤ b.1)

/-- I5, table half: the association table is ascending by `(Key, ForeignKey)`. -/
abbrev table_sorted (self : associated_collection) : Prop :=
  self.associations_.Pairwise (fun a b => a.1 < b.1 ∨ (a.1 = b.1 ∧ a.2 ≤ b.2))

/-- I2: the key of every table entry is the key of an element of the store. -/
abbrev no_dangling (self : associated_collection) : Prop :=
  ∀ v ∈ self.associations_, ∃ e ∈ self.collection_, e.key = v.1

/-- The three statements both deleting lambdas run on the key of an element that
goes away (`inverse_assocations(key)`, `associations_.erase(range)`,
`contributors_.erase(key)`), as one state change. -/
def retract_key (self : associated_collection) (key : Nat) : associated_collection :=
  { self with
    associations_ := flat_multimap.erase_range self.associations_ key
    contributors_ := flat_multimap.erase self.contributors_ key
    foreign_keys_ := (flat_multimap.equal_range self.associations_ key).foldl
      (fun out r => flat_set.insert out (calgo.reverse r)) self.foreign_keys_ }

/-- I3: every element of the store has at least one association. -/
abbrev every_element_linked (self : associated_collection) : Prop :=
  ∀ e ∈ self.collection_, 1 ≤ flat_multimap.count self.associations_ e.key

/-- I4: no two distinct elements of the store have equal association ranges. -/
abbrev no_structural_duplicates (self : associated_collection) : Prop :=
  ∀ a ∈ self.collection_, ∀ b ∈ self.collection_, a ≠ b →
    compare_associations self a.key b.key = false

/-- One element with two links, to the foreign keys 10 and 11. -/
def two_links : associated_collection :=
  ⟨[⟨1, 0⟩], [(1, 10), (1, 11)], [], [], []⟩

/-- Four elements of keys 1 to 4 linked to the foreign keys 11, 10, 12, 10: the
elements 2 and 4 have the same association set and are not neighbours. -/
def interleaved : associated_collection :=
  ⟨[⟨1, 0⟩, ⟨2, 0⟩, ⟨3, 0⟩, ⟨4, 0⟩], [(1, 11), (2, 10), (3, 12), (4, 10)], [], [], []⟩

/-- The first scenario of the specification: elements of keys 1, 2, 3, each linked
once, to the foreign keys A, B, A (A is 10 and B is 11). -/
def scenario_aba : associated_collection :=
  ⟨[⟨1, 0⟩, ⟨2, 0⟩, ⟨3, 0⟩], [(1, 10), (2, 11), (3, 10)], [], [], []⟩

/-- The keys whose element the scan of `erase(inverse_foreign_type const&)` takes out
of the store while it reads the entries `rest` of the table `table`: the keys of
the entries that are in the set to sever and are the only entry of their key. -/
def cascaded (set_of_assocations table rest : List (Nat × Nat)) : List Nat :=
  (rest.filter (fun v => calgo.contains set_of_assocations v &&
    calgo.equals_one (flat_multimap.count table v.1))).map Prod.fst

/-- The state with the elements and the contributors of the keys `keys` taken out. -/
def without_keys (self : associated_collection) (keys : List Nat) : associated_collection :=
  { self with
    collection_ := self.collection_.filter (fun e => !(decide (e.key ∈ keys)))
    contributors_ := self.contributors_.filter (fun c => !(decide (c.1 ∈ keys))) }

end associated_collection

namespace associated_collection

/-- The second scenario of the specification: X and Y (keys 1 and 2), both linked to
A and B (10 and 11). -/
def scenario_xy : associated_collection :=
  ⟨[⟨1, 0⟩, ⟨2, 0⟩], [(1, 10), (1, 11), (2, 10), (2, 11)], [], [], []⟩

/-- The second scenario with one more table entry, of a key (3) that no element of
the store has: the state a further `emplace_association(3, 12)` leaves. -/
def scenario_xy_extra : associated_collection :=
  ⟨[⟨1, 0⟩, ⟨2, 0⟩], [(1, 10), (1, 11), (2, 10), (2, 11), (3, 12)], [], [], []⟩

end associated_collection

/-! ### Insertion into the flat containers -/

namespace flat_tree

/-- The binary search both `lower_bound` and `upper_bound` of a flat container run on
the underlying vector: `first` is the start of the window and `len` its length;
the element in the middle of the window is inspected, and the search goes on in
the part behind it when `go_right` holds of it, in the part before it otherwise.
Every iteration shortens the window, so `fuel` bounds the iterations. -/
def bound_loop {α : Type} (go_right : α → Bool) (seq : List α) : Nat → Nat → Nat → Nat
  | 0, first, _ => first
  | fuel + 1, first, len =>
    if len = 0 then first
    else
      match seq[first + len / 2]? with
      | none => first
      | some middle =>
        if go_right middle then
          bound_loop go_right seq fuel (first + len / 2 + 1) (len - (len / 2 + 1))
        else
          bound_loop go_right seq fuel first (len / 2)

/-- `lower_bound(k)`: the search goes right while the key in the middle is less than
`k`; the result is the position of the first element whose key is not less. -/
def lower_bound {α : Type} (key_of : α → Nat) (seq : List α) (k : Nat) : Nat :=
  bound_loop (fun x => decide (key_of x < k)) seq seq.length 0 seq.length

/-- `upper_bound(k)`: the search goes right unless `k` is less than the key in the
middle; the result is the position of the first element whose key is greater. -/
def upper_bound {α : Type} (key_of : α → Nat) (seq : List α) (k : Nat) : Nat :=
  bound_loop (fun x => !(decide (k < key_of x))) seq seq.length 0 seq.length

end flat_tree

namespace flat_set

/-- `flat_set<Element>::emplace(value)`: the position is `lower_bound` of the key of
the value; the value is inserted there when the position is `end` or the value is
less than the element at the position, and nothing happens otherwise (an element
of the same key is stored). -/
def emplace (container : List Element) (value : Element) : List Element :=
  match container[flat_tree.lower_bound Element.key container value.key]? with
  | none =>
    container.take (flat_tree.lower_bound Element.key container value.key) ++
      value :: container.drop (flat_tree.lower_bound Element.key container value.key)
  | some found =>
    if value.key < found.key then
      container.take (flat_tree.lower_bound Element.key container value.key) ++
        value :: container.drop (flat_tree.lower_bound Element.key container value.key)
    else container

end flat_set

namespace flat_multimap

/-- `flat_multimap::emplace(k, f)`: the entry is inserted at `upper_bound(k)`, behind
the entries of key `k` already stored. -/
def emplace (container : List (Nat × Nat)) (value : Nat × Nat) : List (Nat × Nat) :=
  container.take (flat_tree.upper_bound Prod.fst container value.1) ++
    value :: container.drop (flat_tree.upper_bound Prod.fst container value.1)

end flat_multimap

namespace associated_collection

/-- `associated_collection::emplace`: insert. -/
def emplace (self : associated_collection) (value : Element) : associated_collection :=
  { self with collection_ := flat_set.emplace self.collection_ value }

/-- `associated_collection::emplace_association`: link. The entry is emplaced; then
the range `equal_range(k)` of the table, which runs from `lower_bound(k)` to
`upper_bound(k)`, is sorted in place by `std::sort` with `operator<` of the pairs
(a valid ordering, under which every sorting algorithm yields the same
sequence; the insertion sort is run here). -/
def emplace_association (self : associated_collection) (k f : Nat) : associated_collection :=
  { self with
    associations_ :=
      (flat_multimap.emplace self.associations_ (k, f)).take
        (flat_tree.lower_bound Prod.fst (flat_multimap.emplace self.associations_ (k, f)) k) ++
      calgo.insertion_sort flat_set.pair_less []
        (((flat_multimap.emplace self.associations_ (k, f)).drop
          (flat_tree.lower_bound Prod.fst (flat_multimap.emplace self.associations_ (k, f)) k)).take
          (flat_tree.upper_bound Prod.fst (flat_multimap.emplace self.associations_ (k, f)) k -
            flat_tree.lower_bound Prod.fst (flat_multimap.emplace self.associations_ (k, f)) k)) ++
      (flat_multimap.emplace self.associations_ (k, f)).drop
        (flat_tree.upper_bound Prod.fst (flat_multimap.emplace self.associations_ (k, f)) k) }

/-- The free function `emplace_associations(ac1, ac2, k1, k2)`: the paired link. -/
def emplace_associations (ac1 ac2 : associated_collection) (k1 k2 : Nat) :
    associated_collection × associated_collection :=
  (emplace_association ac1 k1 k2, emplace_association ac2 k2 k1)

/-- A default-constructed `associated_collection`: every container empty. -/
def empty : associated_collection := ⟨[], [], [], [], []⟩

/-- One call of the interface of the index. -/
inductive call where
  | insert (value : Element)
  | link (k f : Nat)
  | delete_by_key (k : Nat)
  | delete_by_association_set (set_of_assocations : List (Nat × Nat))

/-- The state after one call, when the call has one. -/
def step (self : associated_collection) : call → Option associated_collection
  | call.insert value => some (emplace self value)
  | call.link k f => some (emplace_association self k f)
  | call.delete_by_key k => some (erase self k)
  | call.delete_by_association_set s => erase_inverse_foreign self s

/-- The state reached from `self` by a sequence of calls, each made on the state
the call before it has left. -/
def run_from (self : associated_collection) : List call → Option associated_collection
  | [] => some self
  | c :: rest =>
    match step self c with
    | some next => run_from next rest
    | none => none

/-- The state reached from the empty index by a sequence of calls. -/
def run (calls : List call) : Option associated_collection :=
  run_from empty calls

end associated_collection

namespace associated_collection

end associated_collection

namespace associated_collection

/-- Whether a call is a delete-by-association-set, the one call that re-orders the
element store. -/
def call.reorders : call → Bool
  | call.delete_by_association_set _ => true
  | _ => false

end associated_collection

namespace associated_collection

/-- The calls of the first scenario of the specification, followed by a
delete-by-association-set with nothing to sever. -/
def scenario_aba_collapsed : List call :=
  [call.insert ⟨1, 0⟩, call.insert ⟨2, 0⟩, call.insert ⟨3, 0⟩, call.link 1 10, call.link 2 11,
    call.link 3 10, call.delete_by_association_set []]

end associated_collection

namespace calgo

/-- The inner loop of `calgo::triangle_product`: `op(*begin, *next)` for every `next`
from `std::next(begin)` to `end`; the pairs `op` is invoked on, in order. -/
def triangle_product_inner {α : Type} (x : α) : List α → List (α × α)
  | [] => []
  | y :: rest => (x, y) :: triangle_product_inner x rest

/-- `calgo::triangle_product` (the iterator overload, which the container overload
calls with `begin` and `end`): the pairs `op` is invoked on, in order. -/
def triangle_product {α : Type} : List α → List (α × α)
  | [] => []
  | x :: rest => triangle_product_inner x rest ++ triangle_product rest

/-- The strict upper triangle of a sequence, in the words of the documentation: the
pairs `(x_i, x_j)` with `i < j`, in lexicographic order of `(i, j)`. The elements
are numbered from `start`. -/
def strict_upper_triangle {α : Type} (start : Nat) (l : List α) : List (α × α) :=
  (l.enumFrom start).flatMap (fun a =>
    ((l.enumFrom start).filter (fun b => decide (a.1 < b.1))).map (fun b => (a.2, b.2)))

end calgo

namespace associated_collection

/-- Three elements without any association, next to a table entry of a key (9) that
no element has. -/
def unlinked_three : associated_collection :=
  ⟨[⟨1, 0⟩, ⟨2, 0⟩, ⟨3, 0⟩], [(9, 10)], [], [], []⟩

/-- Seventeen elements, of the keys 1 to 17, without any association. -/
def unlinked_seventeen : associated_collection :=
  ⟨(List.range 17).map (fun n => ⟨n + 1, 0⟩), [], [], [], []⟩

/-- Eighteen elements, of the keys 1 to 18, of which the last one alone is linked, to
the foreign key 10. -/
def eighteen_one_link : associated_collection :=
  ⟨(List.range 18).map (fun n => ⟨n + 1, 0⟩), [(18, 10)], [], [], []⟩

end associated_collection

/-! ## Theorems -/

namespace associated_collection

theorem table_sorted_by_key_of_table_sorted {self : associated_collection}
    (h : table_sorted self) : table_sorted_by_key self := by
  unfold table_sorted at h
  unfold table_sorted_by_key
  refine h.imp ?_
  intro a b hab
  rcases hab with hlt | ⟨heq, _⟩
  · exact Nat.le_of_lt hlt
  · exact Nat.le_of_eq heq

/-- The merge loop of `visit`, started anywhere: on a strictly ascending store and a
table ascending by key, with fuel for every remaining iteration, it yields the
elements that have the entry `(key, foreign_key)` in the remaining table. -/
theorem visit_loop_eq_filter (foreign_key : Nat) :
    ∀ (fuel : Nat) (es : List Element) (bs : List (Nat × Nat)),
      es.length + bs.length ≤ fuel →
      es.Pairwise (fun a b => a.key < b.key) →
      bs.Pairwise (fun a b => a.1 ≤ b.1) →
      calgo.set_intersection_loop (visit_comp12 foreign_key) (visit_comp21 foreign_key)
        fuel es bs
        = es.filter (fun e => decide ((e.key, foreign_key) ∈ bs)) := by
  intro fuel
  induction fuel with
  | zero =>
    intro es bs hlen _ _
    have hes : es = [] := by
      cases es with
      | nil => rfl
      | cons a t => simp at hlen
    subst hes
    simp [calgo.set_intersection_loop]
  | succ n ih =>
    intro es bs hlen hes hbs
    cases es with
    | nil => simp [calgo.set_intersection_loop]
    | cons a es1 =>
      cases bs with
      | nil => simp [calgo.set_intersection_loop]
      | cons b bs1 =>
        have hes1 := (List.pairwise_cons.mp hes).2
        have ha := (List.pairwise_cons.mp hes).1
        have hbs1 := (List.pairwise_cons.mp hbs).2
        have hb := (List.pairwise_cons.mp hbs).1
        simp only [List.length_cons] at hlen
        by_cases hm : b.2 = foreign_key ∧ b.1 = a.key
        · -- the entry matches the element: the operation runs, both sides advance
          have hbeq : b = (a.key, foreign_key) := Prod.ext hm.2 hm.1
          have hrec := ih es1 bs1 (by omega) hes1 hbs1
          have hcongr : es1.filter (fun e => decide ((e.key, foreign_key) ∈ b :: bs1))
              = es1.filter (fun e => decide ((e.key, foreign_key) ∈ bs1)) := by
            apply List.filter_congr
            intro e he
            have hlt : a.key < e.key := ha e he
            have hne : (e.key, foreign_key) ≠ b := by
              intro h
              rw [hbeq] at h
              have : e.key = a.key := congrArg Prod.fst h
              omega
            simp [hne]
          simp only [calgo.set_intersection_loop, visit_comp12, visit_comp21, calgo.value,
            calgo.key, hm, and_self, if_true, Bool.not_false, Bool.false_eq_true, if_false]
          rw [hrec, List.filter_cons, hcongr]
          simp [hbeq]
        · by_cases hlt : a.key < b.1
          · -- the element is behind: the element side advances
            have hrec := ih es1 (b :: bs1) (by simp only [List.length_cons]; omega) hes1 hbs
            have hnot : (a.key, foreign_key) ∉ b :: bs1 := by
              intro hmem
              rcases List.mem_cons.mp hmem with h | h
              · have : a.key = b.1 := congrArg Prod.fst h
                omega
              · have hle : b.1 ≤ a.key := hb _ h
                omega
            simp only [calgo.set_intersection_loop, visit_comp12, calgo.value,
              calgo.key, hm, if_false, hlt, decide_True, if_true]
            rw [hrec, List.filter_cons]
            simp [hnot]
          · -- the entry is behind or belongs to the element without matching
            have hrec := ih (a :: es1) bs1 (by simp only [List.length_cons]; omega) hes hbs1
            have hcongr : (a :: es1).filter (fun e => decide ((e.key, foreign_key) ∈ b :: bs1))
                = (a :: es1).filter (fun e => decide ((e.key, foreign_key) ∈ bs1)) := by
              apply List.filter_congr
              intro e he
              have hne : (e.key, foreign_key) ≠ b := by
                intro h
                have h1 : e.key = b.1 := congrArg Prod.fst h
                have h2 : foreign_key = b.2 := congrArg Prod.snd h
                rcases List.mem_cons.mp he with h3 | h3
                · subst h3
                  exact hm ⟨h2.symm, h1.symm⟩
                · have hlt3 : a.key < e.key := ha e h3
                  omega
              simp [hne]
            simp only [calgo.set_intersection_loop, visit_comp12, visit_comp21, calgo.value,
              calgo.key, hm, if_false, hlt, decide_False, Bool.not_false, Bool.not_true,
              Bool.false_eq_true]
            rw [hrec, hcongr]

/-- C1. Merge-join correctness of `visit`: when the element store is strictly sorted
by key and the association table is sorted by (key, foreign key), the elements
`visit(f, op)` invokes `op` on, in the order of the invocations, are exactly the
elements of the store that have an entry `(key, f)` in the table, each once and
in key order: the list of visited elements is the naive filter of the store. -/
theorem visit_eq_naive_filter (self : associated_collection) (f : Nat)
    (hstore : store_sorted self) (htable : table_sorted self) :
    visit self f
      = self.collection_.filter (fun e => decide ((e.key, f) ∈ self.associations_)) :=
  visit_loop_eq_filter f _ self.collection_ self.associations_ (Nat.le_refl _) hstore
    (table_sorted_by_key_of_table_sorted htable)

/-- The scenario of the specification: keys 1, 2, 3 linked to A, B, A (A = 10,
B = 11); visiting A reaches the elements 1 and 3 and not 2. -/
theorem visit_eq_naive_filter_witness :
    store_sorted scenario_aba ∧ table_sorted scenario_aba ∧
    visit scenario_aba 10 = [⟨1, 0⟩, ⟨3, 0⟩] :=
  ⟨by decide, by decide,
    (visit_eq_naive_filter scenario_aba 10 (by decide) (by decide)).trans (by decide)⟩

/-! ### Delete-by-key -/

theorem flat_set_mem_insert (container : List (Nat × Nat)) (value p : Nat × Nat) :
    p ∈ flat_set.insert container value ↔ p ∈ container ∨ p = value := by
  unfold flat_set.insert
  by_cases h : value ∈ container
  · simp only [h, if_true]
    constructor
    · intro hp
      exact Or.inl hp
    · intro hp
      rcases hp with hp | hp
      · exact hp
      · rw [hp]
        exact h
  · simp only [h, if_false]
    have hsplit := List.takeWhile_append_dropWhile (fun x => flat_set.pair_less x value) container
    constructor
    · intro hp
      rcases List.mem_append.mp hp with hp | hp
      · exact Or.inl (List.takeWhile_subset _ hp)
      · rcases List.mem_cons.mp hp with hp | hp
        · exact Or.inr hp
        · exact Or.inl (List.dropWhile_subset _ hp)
    · intro hp
      rcases hp with hp | hp
      · rw [← hsplit] at hp
        rcases List.mem_append.mp hp with hp | hp
        · exact List.mem_append.mpr (Or.inl hp)
        · exact List.mem_append.mpr (Or.inr (List.mem_cons_of_mem _ hp))
      · rw [hp]
        exact List.mem_append.mpr (Or.inr (List.mem_cons_self _ _))

theorem flat_set_mem_foldl_insert (range : List (Nat × Nat)) :
    ∀ (out : List (Nat × Nat)) (p : Nat × Nat),
      p ∈ range.foldl (fun out r => flat_set.insert out (calgo.reverse r)) out
        ↔ p ∈ out ∨ (p.2, p.1) ∈ range := by
  induction range with
  | nil => intro out p; simp
  | cons r rest ih =>
    intro out p
    rw [List.foldl_cons, ih, flat_set_mem_insert]
    simp only [calgo.reverse, List.mem_cons]
    constructor
    · intro h
      rcases h with (h | h) | h
      · exact Or.inl h
      · right; left
        rw [h]
      · exact Or.inr (Or.inr h)
    · intro h
      rcases h with h | h | h
      · exact Or.inl (Or.inl h)
      · left; right
        rw [← h]
      · exact Or.inr h

theorem mem_foreign_keys_retract_key (self : associated_collection) (key : Nat)
    (p : Nat × Nat) :
    p ∈ (retract_key self key).foreign_keys_
      ↔ p ∈ self.foreign_keys_ ∨ (p.2 = key ∧ (p.2, p.1) ∈ self.associations_) := by
  simp only [retract_key, flat_set_mem_foldl_insert, flat_multimap.equal_range,
    List.mem_filter, beq_iff_eq]
  constructor
  · intro h
    rcases h with h | ⟨h1, h2⟩
    · exact Or.inl h
    · exact Or.inr ⟨h2, h1⟩
  · intro h
    rcases h with h | ⟨h1, h2⟩
    · exact Or.inl h
    · exact Or.inr ⟨h2, h1⟩

theorem erase_if_predicate_eq (predicate : Element → Bool) (self : associated_collection)
    (element : Element) :
    erase_if_predicate predicate self element
      = if predicate element then (true, retract_key self element.key) else (false, self) :=
  rfl

theorem erase_collapse_predicate_eq (self : associated_collection) (a b : Element) :
    erase_collapse_predicate self a b
      = if compare_associations self a.key b.key then (true, retract_key self b.key)
        else (false, self) :=
  rfl

theorem retract_key_put_collection (c : List Element) (self : associated_collection)
    (key : Nat) :
    retract_key (put_collection c self) key = put_collection c (retract_key self key) :=
  rfl

theorem put_collection_put_collection (c c' : List Element) (self : associated_collection) :
    put_collection c (put_collection c' self) = put_collection c self :=
  rfl

theorem retract_key_retract_key (self : associated_collection) (key : Nat) :
    retract_key (retract_key self key) key = retract_key self key := by
  have hrange : flat_multimap.equal_range
      (flat_multimap.erase_range self.associations_ key) key = [] := by
    simp [flat_multimap.equal_range, flat_multimap.erase_range, List.filter_filter]
  simp only [retract_key, hrange, List.foldl_nil]
  simp [flat_multimap.erase_range, flat_multimap.erase, List.filter_filter]

/-- The `std::remove_if` loop of delete-by-key, started anywhere: the elements of
key `k` go away, and the state is retracted for `k` when one was met. -/
theorem erase_key_loop (k : Nat) :
    ∀ (rest : List Element) (s : associated_collection) (kept stale c : List Element),
      put_collection c
          (calgo.remove_if_loop put_collection (erase_if_predicate (fun e => e.key == k))
            s kept stale rest).1
        = put_collection c (if rest.any (fun e => e.key == k) then retract_key s k else s)
      ∧ (calgo.remove_if_loop put_collection (erase_if_predicate (fun e => e.key == k))
            s kept stale rest).2
        = kept ++ rest.filter (fun e => !(e.key == k)) := by
  intro rest
  induction rest with
  | nil => intro s kept stale c; simp [calgo.remove_if_loop]
  | cons x rest ih =>
    intro s kept stale c
    by_cases hx : x.key = k
    · have hstep : erase_if_predicate (fun e => e.key == k)
          (put_collection (kept ++ stale ++ x :: rest) s) x
          = (true, put_collection (kept ++ stale ++ x :: rest) (retract_key s k)) := by
        rw [erase_if_predicate_eq]
        simp [hx, retract_key_put_collection]
      have h := ih (put_collection (kept ++ stale ++ x :: rest) (retract_key s k))
        kept (stale ++ [x]) c
      simp only [calgo.remove_if_loop, hstep, if_true]
      refine ⟨?_, ?_⟩
      · rw [h.1]
        have hany : (x :: rest).any (fun e => e.key == k) = true := by simp [hx]
        rw [hany, if_pos rfl]
        by_cases hr : rest.any (fun e => e.key == k) = true
        · rw [if_pos hr, retract_key_put_collection, retract_key_retract_key]
          rfl
        · rw [if_neg hr]
          rfl
      · rw [h.2]
        simp [hx]
    · have hstep : erase_if_predicate (fun e => e.key == k)
          (put_collection (kept ++ stale ++ x :: rest) s) x
          = (false, put_collection (kept ++ stale ++ x :: rest) s) := by
        rw [erase_if_predicate_eq]
        simp [hx]
      have h := ih (put_collection (kept ++ stale ++ x :: rest) s)
        (kept ++ [x]) (stale ++ [x]).tail c
      simp only [calgo.remove_if_loop, hstep, Bool.false_eq_true, if_false]
      refine ⟨?_, ?_⟩
      · rw [h.1]
        have hany : (x :: rest).any (fun e => e.key == k) = rest.any (fun e => e.key == k) := by
          simp [hx]
        rw [hany]
        by_cases hr : rest.any (fun e => e.key == k) = true
        · rw [if_pos hr, if_pos hr]
          rfl
        · rw [if_neg hr, if_neg hr]
          rfl
      · rw [h.2]
        simp [hx]

/-- Delete-by-key in closed form: when an element of key `k` is stored, the elements
of key `k` leave the store and the state is retracted for `k`; otherwise nothing
changes. -/
theorem erase_eq (self : associated_collection) (k : Nat) :
    erase self k
      = if self.collection_.any (fun e => e.key == k) then
          put_collection (self.collection_.filter (fun e => !(e.key == k)))
            (retract_key self k)
        else self := by
  have h := erase_key_loop k self.collection_ self [] []
    (self.collection_.filter (fun e => !(e.key == k)))
  unfold erase erase_if calgo.erase_if
  rw [h.2, List.nil_append, h.1]
  by_cases hany : self.collection_.any (fun e => e.key == k) = true
  · rw [if_pos hany, if_pos hany]
  · rw [if_neg hany, if_neg hany]
    have hfilter : self.collection_.filter (fun e => !(e.key == k)) = self.collection_ := by
      rw [List.filter_eq_self]
      intro e he
      simp only [List.any_eq_true, not_exists, not_and] at hany
      have := hany e he
      simp [this]
    rw [hfilter]
    rfl

/-- C2. Effect of delete-by-key on store and table: with unique keys in the store, a
table sorted by key and an element of key `k` stored, after `erase(k)` the store
is the former store with exactly that one element taken out (the elements before
and after it kept, in order), which is the former store without the elements of
key `k`, and the table is the former table without the entries of key `k`, the
entries of the other keys kept in order. -/
theorem erase_key_store_and_table (self : associated_collection) (k : Nat)
    (hkeys : unique_keys self) (_htable : table_sorted_by_key self)
    (hk : ∃ e ∈ self.collection_, e.key = k) :
    (∃ l1 e l2, self.collection_ = l1 ++ e :: l2 ∧ e.key = k ∧
        (erase self k).collection_ = l1 ++ l2) ∧
    (erase self k).collection_ = self.collection_.filter (fun e => !(e.key == k)) ∧
    (erase self k).associations_ = self.associations_.filter (fun v => !(v.1 == k)) := by
  obtain ⟨e, he, hek⟩ := hk
  have hany : self.collection_.any (fun e => e.key == k) = true := by
    rw [List.any_eq_true]
    exact ⟨e, he, by simp [hek]⟩
  have hstore : (erase self k).collection_
      = self.collection_.filter (fun e => !(e.key == k)) := by
    rw [erase_eq, if_pos hany]
    rfl
  have htab : (erase self k).associations_
      = self.associations_.filter (fun v => !(v.1 == k)) := by
    rw [erase_eq, if_pos hany]
    rfl
  refine ⟨?_, hstore, htab⟩
  obtain ⟨l1, l2, hsplit⟩ := List.append_of_mem he
  refine ⟨l1, e, l2, hsplit, hek, ?_⟩
  rw [hstore, hsplit]
  have hpw : (l1 ++ e :: l2).Pairwise (fun a b => a.key ≠ b.key) := by
    have h := hkeys
    unfold unique_keys at h
    rw [hsplit] at h
    exact h
  rw [List.pairwise_append] at hpw
  obtain ⟨_, hel2, hl1⟩ := hpw
  have h1 : l1.filter (fun e => !(e.key == k)) = l1 := by
    rw [List.filter_eq_self]
    intro x hx
    have hne : x.key ≠ e.key := hl1 x hx e (List.mem_cons_self _ _)
    rw [hek] at hne
    simp [hne]
  have h2 : l2.filter (fun e => !(e.key == k)) = l2 := by
    rw [List.filter_eq_self]
    intro x hx
    have hne : e.key ≠ x.key := (List.pairwise_cons.mp hel2).1 x hx
    rw [hek] at hne
    simp [Ne.symm hne]
  rw [List.filter_append, List.filter_cons, h1, h2]
  simp [hek]

/-- The scenario of the specification: deleting key 2 leaves the elements 1 and 3,
and the entries of the keys 1 and 3. -/
theorem erase_key_store_and_table_witness :
    unique_keys scenario_aba ∧ table_sorted_by_key scenario_aba ∧
    (erase scenario_aba 2).collection_ = [⟨1, 0⟩, ⟨3, 0⟩] ∧
    (erase scenario_aba 2).associations_ = [(1, 10), (3, 10)] :=
  ⟨by decide, by decide,
    (erase_key_store_and_table scenario_aba 2 (by decide) (by decide)
      ⟨⟨2, 0⟩, by decide, rfl⟩).2.1.trans (by decide),
    by decide⟩

/-- C3. The pairs reported by delete-by-key are exact: with unique keys, a sorted
table and an element of key `k` stored, a pair is in `foreign_keys_` after
`erase(k)` exactly when it was there before or it is `(f, k)` for an entry `(k, f)`
of the table before the call. Nothing else is added, nothing is removed. -/
theorem erase_key_reported (self : associated_collection) (k : Nat)
    (_hkeys : unique_keys self) (_htable : table_sorted self)
    (hk : ∃ e ∈ self.collection_, e.key = k) :
    ∀ p : Nat × Nat, p ∈ (erase self k).foreign_keys_
      ↔ p ∈ self.foreign_keys_ ∨ (p.2 = k ∧ (k, p.1) ∈ self.associations_) := by
  obtain ⟨e, he, hek⟩ := hk
  have hany : self.collection_.any (fun e => e.key == k) = true := by
    rw [List.any_eq_true]
    exact ⟨e, he, by simp [hek]⟩
  intro p
  have hfk : (erase self k).foreign_keys_ = (retract_key self k).foreign_keys_ := by
    rw [erase_eq, if_pos hany]
    rfl
  rw [hfk, mem_foreign_keys_retract_key]
  constructor
  · intro h
    rcases h with h | ⟨h1, h2⟩
    · exact Or.inl h
    · right
      refine ⟨h1, ?_⟩
      rw [← h1]
      exact h2
  · intro h
    rcases h with h | ⟨h1, h2⟩
    · exact Or.inl h
    · right
      refine ⟨h1, ?_⟩
      rw [h1]
      exact h2

/-- The scenario of the specification: deleting key 2 adds exactly `(B, 2)` to the
reported pairs and leaves the store holding the elements 1 and 3. -/
theorem erase_key_reported_witness :
    unique_keys scenario_aba ∧ table_sorted scenario_aba ∧
    (∀ p : Nat × Nat, p ∈ (erase scenario_aba 2).foreign_keys_ ↔ p = (11, 2)) ∧
    (erase scenario_aba 2).collection_ = [⟨1, 0⟩, ⟨3, 0⟩] := by
  refine ⟨by decide, by decide, ?_, by decide⟩
  intro p
  rw [erase_key_reported scenario_aba 2 (by decide) (by decide) ⟨⟨2, 0⟩, by decide, rfl⟩ p]
  simp only [scenario_aba, List.not_mem_nil, false_or, List.mem_cons, Prod.mk.injEq]
  constructor
  · rintro ⟨h2, h3⟩
    rcases h3 with ⟨h, _⟩ | ⟨_, h⟩ | ⟨h, _⟩ | h
    · omega
    · exact Prod.ext h h2
    · omega
    · exact h.elim
  · intro h
    subst h
    simp

/-! ### Delete-by-association-set: the scan of the table -/

theorem calgo_contains_iff {α : Type} [DecidableEq α] (container : List α) (value : α) :
    calgo.contains container value = true ↔ value ∈ container := by
  induction container with
  | nil => simp [calgo.contains]
  | cons x rest ih =>
    unfold calgo.contains
    by_cases h : x = value
    · simp [h]
    · simp only [h, if_false, ih, List.mem_cons]
      constructor
      · intro hm
        exact Or.inr hm
      · intro hm
        rcases hm with hm | hm
        · exact absurd hm.symm h
        · exact hm

theorem count_eq_countP (container : List (Nat × Nat)) (k : Nat) :
    flat_multimap.count container k = container.countP (fun e => e.1 == k) := by
  unfold flat_multimap.count flat_multimap.equal_range
  rw [List.countP_eq_length_filter]

/-- What `count` returns inside the scan. The predicate runs while `std::remove_if`
is half way: the table holds the kept entries, the stale slots, the entry under
test and the unread entries. On a table sorted by key, `count` of the key of the
entry under test is one in that buffer exactly when it is one in the table the
call started from. -/
theorem scan_buffer_count_one (done rest kept stale : List (Nat × Nat)) (x : Nat × Nat)
    (hsorted : (done ++ x :: rest).Pairwise (fun a b => a.1 ≤ b.1))
    (hkept : kept.Sublist done) (hstale : stale = done.drop kept.length) :
    flat_multimap.count (kept ++ stale ++ x :: rest) x.1 = 1
      ↔ flat_multimap.count (done ++ x :: rest) x.1 = 1 := by
  rw [count_eq_countP, count_eq_countP]
  simp only [List.countP_append, List.countP_cons, beq_self_eq_true, if_true]
  have hstale_sub : stale.Sublist done := by
    rw [hstale]
    exact List.drop_sublist _ _
  have h1 := hkept.countP_le (fun e => e.1 == x.1)
  have h2 := hstale_sub.countP_le (fun e => e.1 == x.1)
  constructor
  · intro h
    have hk0 : kept.countP (fun e => e.1 == x.1) = 0 := by omega
    have hs0 : stale.countP (fun e => e.1 == x.1) = 0 := by omega
    have hd0 : done.countP (fun e => e.1 == x.1) = 0 := by
      by_contra hne
      have hpos : 0 < done.countP (fun e => e.1 == x.1) := Nat.pos_of_ne_zero hne
      rw [List.countP_pos_iff] at hpos
      obtain ⟨y, hy, hyk⟩ := hpos
      have hyk' : y.1 = x.1 := by simpa using hyk
      rw [List.pairwise_append] at hsorted
      obtain ⟨hdone, _, hcross⟩ := hsorted
      by_cases hnil : stale = []
      · -- nothing was removed so far: the kept entries are all the entries read
        have hlen : done.length ≤ kept.length := by
          rw [hstale, List.drop_eq_nil_iff] at hnil
          exact hnil
        have heq : kept = done := hkept.eq_of_length_le hlen
        rw [heq] at hk0
        rw [List.countP_eq_zero] at hk0
        exact absurd hyk (hk0 y hy)
      · -- some slot is stale: the last stale slot has the key of `x`
        obtain ⟨z, hz⟩ := List.exists_mem_of_ne_nil stale hnil
        have hzd : z ∈ done := hstale_sub.subset hz
        have hzx : z.1 ≤ x.1 := hcross z hzd x (List.mem_cons_self _ _)
        rw [List.countP_eq_zero] at hs0
        have hzne : z.1 ≠ x.1 := by
          have := hs0 z hz
          simpa using this
        have hsplit := List.take_append_drop kept.length done
        rw [← hsplit] at hy
        rcases List.mem_append.mp hy with hy | hy
        · rw [← hsplit, List.pairwise_append] at hdone
          have hz' : z ∈ List.drop kept.length done := by
            rw [← hstale]
            exact hz
          have hyz : y.1 ≤ z.1 := hdone.2.2 y hy z hz'
          omega
        · rw [← hstale] at hy
          exact absurd hyk (hs0 y hy)
    omega
  · intro h
    omega

/-- The scan loop of delete-by-association-set, started anywhere: the entries of the
set to sever go away, and the store loses the elements of the cascaded keys. -/
theorem erase_scan_loop (S : List (Nat × Nat)) :
    ∀ (rest done : List (Nat × Nat)) (s : associated_collection)
      (kept stale a : List (Nat × Nat)),
      (done ++ rest).Pairwise (fun a b => a.1 ≤ b.1) →
      kept = done.filter (fun v => !(calgo.contains S v)) →
      stale = done.drop kept.length →
      (calgo.remove_if_loop put_associations (erase_scan_predicate S) s kept stale rest).2
        = kept ++ rest.filter (fun v => !(calgo.contains S v))
      ∧ put_associations a
          (calgo.remove_if_loop put_associations (erase_scan_predicate S) s kept stale rest).1
        = put_associations a (without_keys s (cascaded S (done ++ rest) rest)) := by
  intro rest
  induction rest with
  | nil =>
    intro done s kept stale a _ _ _
    have hs : without_keys s [] = s := by
      simp [without_keys]
    simp [calgo.remove_if_loop, cascaded, hs]
  | cons x rest ih =>
    intro done s kept stale a hsorted hkept hstale
    have hsorted' : ((done ++ [x]) ++ rest).Pairwise (fun a b => a.1 ≤ b.1) := by
      rw [List.append_assoc]
      exact hsorted
    have happ : (done ++ [x]) ++ rest = done ++ x :: rest := by
      rw [List.append_assoc]
      rfl
    have hsub : kept.Sublist done := by
      rw [hkept]
      exact List.filter_sublist _
    have hlen : kept.length ≤ done.length := hsub.length_le
    have hcount := scan_buffer_count_one done rest kept stale x hsorted hsub hstale
    by_cases hS : calgo.contains S x = true
    · have hkept' : kept = (done ++ [x]).filter (fun v => !(calgo.contains S v)) := by
        rw [List.filter_append, ← hkept]
        simp [hS]
      have hstale' : stale ++ [x] = (done ++ [x]).drop kept.length := by
        rw [List.drop_append_of_le_length hlen, hstale]
      by_cases hone : flat_multimap.count (done ++ x :: rest) x.1 = 1
      · -- the only entry of its key: the element goes away with it
        have hstep : erase_scan_predicate S
            (put_associations (kept ++ stale ++ x :: rest) s) x
            = (true, put_associations (kept ++ stale ++ x :: rest) (without_keys s [x.1])) := by
          unfold erase_scan_predicate
          rw [if_pos hS]
          have : calgo.equals_one
              (flat_multimap.count (put_associations (kept ++ stale ++ x :: rest) s).associations_
                x.1) = true := by
            simp only [put_associations, calgo.equals_one, beq_iff_eq]
            exact hcount.mpr hone
          rw [if_pos this]
          simp only [put_associations, without_keys, calgo.erase_value, flat_multimap.erase,
            List.mem_singleton, Prod.mk.injEq, true_and, associated_collection.mk.injEq,
            and_true]
          refine ⟨?_, ?_⟩
          · apply List.filter_congr
            intro e _
            by_cases h1 : e.key = x.1 <;> simp [h1]
          · apply List.filter_congr
            intro c _
            by_cases h1 : c.1 = x.1 <;> simp [h1]
        have h := ih (done ++ [x])
          (put_associations (kept ++ stale ++ x :: rest) (without_keys s [x.1]))
          kept (stale ++ [x]) a hsorted' hkept' hstale'
        simp only [calgo.remove_if_loop, hstep, if_true]
        refine ⟨?_, ?_⟩
        · rw [h.1]
          simp [hS]
        · rw [h.2, happ]
          have hc : cascaded S (done ++ x :: rest) (x :: rest)
              = x.1 :: cascaded S (done ++ x :: rest) rest := by
            simp [cascaded, hS, hone, calgo.equals_one]
          rw [hc]
          simp only [put_associations, without_keys, List.filter_filter,
            associated_collection.mk.injEq, true_and, and_true]
          refine ⟨?_, ?_⟩
          · apply List.filter_congr
            intro e _
            simp only [List.mem_singleton, List.mem_cons]
            by_cases h1 : e.key = x.1 <;> simp [h1]
          · apply List.filter_congr
            intro c _
            simp only [List.mem_singleton, List.mem_cons]
            by_cases h1 : c.1 = x.1 <;> simp [h1]
      · -- other entries of the key are counted: only the entry goes away
        have hstep : erase_scan_predicate S
            (put_associations (kept ++ stale ++ x :: rest) s) x
            = (true, put_associations (kept ++ stale ++ x :: rest) s) := by
          unfold erase_scan_predicate
          rw [if_pos hS]
          have : ¬ calgo.equals_one
              (flat_multimap.count (put_associations (kept ++ stale ++ x :: rest) s).associations_
                x.1) = true := by
            simp only [put_associations, calgo.equals_one, beq_iff_eq]
            exact fun hc => hone (hcount.mp hc)
          rw [if_neg this]
        have h := ih (done ++ [x]) (put_associations (kept ++ stale ++ x :: rest) s)
          kept (stale ++ [x]) a hsorted' hkept' hstale'
        simp only [calgo.remove_if_loop, hstep, if_true]
        refine ⟨?_, ?_⟩
        · rw [h.1]
          simp [hS]
        · rw [h.2, happ]
          have hc : cascaded S (done ++ x :: rest) (x :: rest)
              = cascaded S (done ++ x :: rest) rest := by
            simp [cascaded, hS, hone, calgo.equals_one]
          rw [hc]
          rfl
    · -- the entry is not to be severed: it is kept
      have hS' : calgo.contains S x = false := by simpa using hS
      have hkept' : kept ++ [x] = (done ++ [x]).filter (fun v => !(calgo.contains S v)) := by
        rw [List.filter_append, ← hkept]
        simp [hS']
      have hstale' : (stale ++ [x]).tail = (done ++ [x]).drop (kept ++ [x]).length := by
        rw [hstale, ← List.drop_append_of_le_length hlen, List.tail_drop]
        simp
      have hstep : erase_scan_predicate S
          (put_associations (kept ++ stale ++ x :: rest) s) x
          = (false, put_associations (kept ++ stale ++ x :: rest) s) := by
        unfold erase_scan_predicate
        rw [if_neg hS]
      have h := ih (done ++ [x]) (put_associations (kept ++ stale ++ x :: rest) s)
        (kept ++ [x]) (stale ++ [x]).tail a hsorted' hkept' hstale'
      simp only [calgo.remove_if_loop, hstep, Bool.false_eq_true, if_false]
      refine ⟨?_, ?_⟩
      · rw [h.1]
        simp [hS']
      · rw [h.2, happ]
        have hc : cascaded S (done ++ x :: rest) (x :: rest)
            = cascaded S (done ++ x :: rest) rest := by
          simp [cascaded, hS']
        rw [hc]
        rfl

/-- The scan of delete-by-association-set in closed form, on a table sorted by key:
the table loses the entries that are in the set, the store (and the contributors)
lose the cascaded keys, nothing is reported. -/
theorem erase_scan_eq (self : associated_collection) (S : List (Nat × Nat))
    (htable : table_sorted_by_key self) :
    erase_scan self S
      = put_associations (self.associations_.filter (fun v => !(calgo.contains S v)))
          (without_keys self (cascaded S self.associations_ self.associations_)) := by
  have h := erase_scan_loop S self.associations_ [] self [] []
    (self.associations_.filter (fun v => !(calgo.contains S v)))
    (by simpa using htable) (by simp) (by simp)
  unfold erase_scan calgo.erase_if
  rw [h.1, List.nil_append, h.2]
  simp

/-! ### Delete-by-association-set: the re-ordering and the collapse -/

theorem linear_insert_perm {α : Type} (comp : α → α → Bool) (val : α) (sorted : List α) :
    (calgo.linear_insert comp val sorted).Perm (val :: sorted) := by
  unfold calgo.linear_insert
  cases sorted with
  | nil => exact List.Perm.refl _
  | cons first tail =>
    by_cases h : comp val first = true
    · simp only [h, if_true]
      exact List.Perm.refl _
    · simp only [h, if_false]
      have hsplit := List.takeWhile_append_dropWhile (comp val) (first :: tail).reverse
      refine List.perm_middle.trans (List.Perm.cons val ?_)
      rw [← List.reverse_append, hsplit, List.reverse_reverse]

theorem insertion_sort_perm {α : Type} (comp : α → α → Bool) :
    ∀ (rest sorted : List α), (calgo.insertion_sort comp sorted rest).Perm (sorted ++ rest) := by
  intro rest
  induction rest with
  | nil => intro sorted; simp [calgo.insertion_sort]
  | cons val rest ih =>
    intro sorted
    unfold calgo.insertion_sort
    refine (ih _).trans ?_
    refine (List.Perm.append_right rest (linear_insert_perm comp val sorted)).trans ?_
    show (val :: (sorted ++ rest)).Perm (sorted ++ val :: rest)
    exact List.perm_middle.symm

/-- Whenever `calgo::sort` has a result, it is the insertion-sorted range. -/
theorem sort_eq_some {α : Type} (container : List α) (binary_predicate : α → α → Bool)
    (sorted : List α) (h : calgo.sort container binary_predicate = some sorted) :
    sorted = calgo.insertion_sort binary_predicate [] container := by
  unfold calgo.sort at h
  split at h
  · exact (Option.some.inj h).symm
  · split at h
    · exact (Option.some.inj h).symm
    · exact absurd h (by simp)

/-- The re-ordering keeps the elements: a result of `calgo::sort` is a permutation
of the range. -/
theorem sort_perm {α : Type} (container : List α) (binary_predicate : α → α → Bool)
    (sorted : List α) (h : calgo.sort container binary_predicate = some sorted) :
    sorted.Perm container := by
  rw [sort_eq_some container binary_predicate sorted h]
  simpa using insertion_sort_perm binary_predicate container []

/-- On at most sixteen elements `calgo::sort` has a result, whatever the comparison. -/
theorem sort_of_short {α : Type} (container : List α) (binary_predicate : α → α → Bool)
    (hshort : container.length ≤ 16) :
    calgo.sort container binary_predicate
      = some (calgo.insertion_sort binary_predicate [] container) := by
  unfold calgo.sort
  rw [if_pos hshort]

/-- With a comparison that orders the range strictly `calgo::sort` has a result,
whatever the length. -/
theorem sort_of_orders_strictly {α : Type} (container : List α)
    (binary_predicate : α → α → Bool)
    (hvalid : calgo.orders_strictly binary_predicate container = true) :
    calgo.sort container binary_predicate
      = some (calgo.insertion_sort binary_predicate [] container) := by
  simp [calgo.sort, hvalid]

/-- On more than sixteen elements that the comparison does not order strictly
`calgo::sort` has no result. -/
theorem sort_eq_none {α : Type} (container : List α) (binary_predicate : α → α → Bool)
    (hlong : 16 < container.length)
    (hinvalid : calgo.orders_strictly binary_predicate container = false) :
    calgo.sort container binary_predicate = none := by
  unfold calgo.sort
  rw [if_neg (by omega), hinvalid]
  rfl

theorem mem_associations_retract_key (self : associated_collection) (key : Nat)
    (v : Nat × Nat) :
    v ∈ (retract_key self key).associations_ ↔ v ∈ self.associations_ ∧ v.1 ≠ key := by
  simp [retract_key, flat_multimap.erase_range]

/-- The `std::unique` loop of the collapse, started anywhere. Some elements
`dropped` of the part still to read go away, the others are kept in order behind
the elements kept so far; the table loses the entries of the dropped keys, the
contributors too, and the reported pairs gain the inverses of those entries. -/
theorem erase_collapse_loop :
    ∀ (rest : List Element) (s : associated_collection) (kept : List Element)
      (dest : Element),
      ∃ dropped : List Element,
        dropped.Sublist rest ∧
        ((calgo.unique_loop erase_collapse_predicate s kept dest rest).2 ++ dropped).Perm
          (kept ++ rest) ∧
        (calgo.unique_loop erase_collapse_predicate s kept dest rest).1.associations_
          = s.associations_.filter (fun v => !(decide (v.1 ∈ dropped.map Element.key))) ∧
        (calgo.unique_loop erase_collapse_predicate s kept dest rest).1.contributors_
          = s.contributors_.filter (fun c => !(decide (c.1 ∈ dropped.map Element.key))) ∧
        (calgo.unique_loop erase_collapse_predicate s kept dest rest).1.keys_ = s.keys_ ∧
        (∀ p : Nat × Nat,
          p ∈ (calgo.unique_loop erase_collapse_predicate s kept dest rest).1.foreign_keys_
            ↔ p ∈ s.foreign_keys_ ∨
              (p.2 ∈ dropped.map Element.key ∧ (p.2, p.1) ∈ s.associations_)) := by
  intro rest
  induction rest with
  | nil =>
    intro s kept dest
    refine ⟨[], List.Sublist.refl _, ?_, ?_, ?_, ?_, ?_⟩
    · simp [calgo.unique_loop]
    · simp [calgo.unique_loop]
    · simp [calgo.unique_loop]
    · simp [calgo.unique_loop]
    · intro p
      simp [calgo.unique_loop]
  | cons x rest ih =>
    intro s kept dest
    by_cases hc : compare_associations s dest.key x.key = true
    · have hstep : erase_collapse_predicate s dest x = (true, retract_key s x.key) := by
        rw [erase_collapse_predicate_eq, if_pos hc]
      obtain ⟨dropped, hsub, hperm, htab, hcon, hkeys, hfk⟩ := ih (retract_key s x.key) kept dest
      refine ⟨x :: dropped, hsub.cons₂ x, ?_, ?_, ?_, ?_, ?_⟩
      · simp only [calgo.unique_loop, hstep, if_true]
        refine List.perm_middle.trans ?_
        refine (List.Perm.cons x hperm).trans ?_
        exact List.perm_middle.symm
      · simp only [calgo.unique_loop, hstep, if_true]
        rw [htab]
        simp only [retract_key, flat_multimap.erase_range, List.filter_filter, List.map_cons,
          List.mem_cons]
        apply List.filter_congr
        intro v _
        by_cases h1 : v.1 = x.key <;> simp [h1]
      · simp only [calgo.unique_loop, hstep, if_true]
        rw [hcon]
        simp only [retract_key, flat_multimap.erase, List.filter_filter, List.map_cons,
          List.mem_cons]
        apply List.filter_congr
        intro v _
        by_cases h1 : v.1 = x.key <;> simp [h1]
      · simp only [calgo.unique_loop, hstep, if_true]
        rw [hkeys]
        rfl
      · intro p
        simp only [calgo.unique_loop, hstep, if_true]
        rw [hfk, mem_foreign_keys_retract_key, mem_associations_retract_key]
        simp only [List.map_cons, List.mem_cons]
        by_cases h1 : p.2 = x.key
        · simp only [h1, ne_eq, not_true_eq_false, and_false, or_false, true_or, true_and]
        · simp only [h1, false_and, or_false, ne_eq, not_false_eq_true, and_true, false_or]
    · have hstep : erase_collapse_predicate s dest x = (false, s) := by
        rw [erase_collapse_predicate_eq, if_neg hc]
      obtain ⟨dropped, hsub, hperm, htab, hcon, hkeys, hfk⟩ := ih s (kept ++ [x]) x
      refine ⟨dropped, hsub.cons x, ?_, ?_, ?_, ?_, ?_⟩
      · simp only [calgo.unique_loop, hstep, Bool.false_eq_true, if_false]
        simpa using hperm
      · simp only [calgo.unique_loop, hstep, Bool.false_eq_true, if_false]
        exact htab
      · simp only [calgo.unique_loop, hstep, Bool.false_eq_true, if_false]
        exact hcon
      · simp only [calgo.unique_loop, hstep, Bool.false_eq_true, if_false]
        exact hkeys
      · intro p
        simp only [calgo.unique_loop, hstep, Bool.false_eq_true, if_false]
        exact hfk p

/-- The collapse as a whole: some elements `dropped` of the store go away; the
table and the contributors lose the entries of the dropped keys; the reported
pairs gain the inverses of the table entries of the dropped keys. -/
theorem erase_collapse_spec (s : associated_collection) :
    ∃ dropped : List Element,
      dropped.Sublist s.collection_ ∧
      ((erase_collapse s).collection_ ++ dropped).Perm s.collection_ ∧
      (erase_collapse s).associations_
        = s.associations_.filter (fun v => !(decide (v.1 ∈ dropped.map Element.key))) ∧
      (erase_collapse s).contributors_
        = s.contributors_.filter (fun c => !(decide (c.1 ∈ dropped.map Element.key))) ∧
      (erase_collapse s).keys_ = s.keys_ ∧
      (∀ p : Nat × Nat, p ∈ (erase_collapse s).foreign_keys_
        ↔ p ∈ s.foreign_keys_ ∨
          (p.2 ∈ dropped.map Element.key ∧ (p.2, p.1) ∈ s.associations_)) := by
  unfold erase_collapse calgo.erase_duplicates_if
  cases hstore : s.collection_ with
  | nil =>
    refine ⟨[], List.Sublist.refl _, ?_, ?_, ?_, ?_, ?_⟩
    · simp [put_collection]
    · simp [put_collection]
    · simp [put_collection]
    · simp [put_collection]
    · intro p
      simp [put_collection]
  | cons first rest =>
    obtain ⟨dropped, hsub, hperm, htab, hcon, hkeys, hfk⟩ :=
      erase_collapse_loop rest s [first] first
    refine ⟨dropped, hsub.cons first, ?_, ?_, ?_, ?_, ?_⟩
    · simpa [put_collection] using hperm
    · simpa [put_collection] using htab
    · simpa [put_collection] using hcon
    · simpa [put_collection] using hkeys
    · intro p
      simpa [put_collection] using hfk p

/-! ### Delete-by-association-set as a whole -/

theorem mem_cascaded (S table : List (Nat × Nat)) (k : Nat) :
    k ∈ cascaded S table table
      ↔ ∃ v ∈ table, v ∈ S ∧ flat_multimap.count table v.1 = 1 ∧ v.1 = k := by
  simp only [cascaded, List.mem_map, List.mem_filter, Bool.and_eq_true, calgo_contains_iff,
    calgo.equals_one, beq_iff_eq]
  constructor
  · rintro ⟨v, ⟨hv, hS, hone⟩, hk⟩
    exact ⟨v, hv, hS, hone, hk⟩
  · rintro ⟨v, hv, hS, hone, hk⟩
    exact ⟨v, ⟨hv, hS, hone⟩, hk⟩

/-- The store after the scan: the elements whose key is not cascaded. -/
theorem mem_collection_erase_scan (self : associated_collection) (S : List (Nat × Nat))
    (htable : table_sorted_by_key self) (e : Element) :
    e ∈ (erase_scan self S).collection_
      ↔ e ∈ self.collection_ ∧ e.key ∉ cascaded S self.associations_ self.associations_ := by
  rw [erase_scan_eq self S htable]
  simp [put_associations, without_keys]

/-- The table after the scan: the entries that are not in the set to sever. -/
theorem mem_associations_erase_scan (self : associated_collection) (S : List (Nat × Nat))
    (htable : table_sorted_by_key self) (v : Nat × Nat) :
    v ∈ (erase_scan self S).associations_ ↔ v ∈ self.associations_ ∧ v ∉ S := by
  rw [erase_scan_eq self S htable]
  simp only [put_associations, List.mem_filter, Bool.not_eq_true', and_congr_right_iff]
  intro _
  rw [← calgo_contains_iff S v]
  simp

/-- Whenever delete-by-association-set has a resulting state, it is the collapse of
the state after the scan, with the store as `calgo::sort` returned it. -/
theorem erase_inverse_foreign_eq_some (self : associated_collection) (S : List (Nat × Nat))
    (r : associated_collection) (hr : erase_inverse_foreign self S = some r) :
    ∃ sorted : List Element,
      calgo.sort (erase_scan self S).collection_ (erase_sort_predicate (erase_scan self S))
        = some sorted ∧
      r = erase_collapse (put_collection sorted (erase_scan self S)) := by
  unfold erase_inverse_foreign erase_reorder at hr
  cases hsort : calgo.sort (erase_scan self S).collection_
      (erase_sort_predicate (erase_scan self S)) with
  | none =>
    rw [hsort] at hr
    simp at hr
  | some sorted =>
    rw [hsort] at hr
    exact ⟨sorted, rfl, (Option.some.inj hr).symm⟩

/-- Delete-by-association-set has a resulting state whenever its `calgo::sort` has a
result. -/
theorem erase_inverse_foreign_of_sort (self : associated_collection) (S : List (Nat × Nat))
    (sorted : List Element)
    (hsort : calgo.sort (erase_scan self S).collection_
      (erase_sort_predicate (erase_scan self S)) = some sorted) :
    erase_inverse_foreign self S
      = some (erase_collapse (put_collection sorted (erase_scan self S))) := by
  unfold erase_inverse_foreign erase_reorder
  rw [hsort]
  rfl

/-- Delete-by-association-set has no resulting state when its scan leaves more than
sixteen elements that the comparison handed to the sort does not order strictly. -/
theorem erase_inverse_foreign_eq_none (self : associated_collection) (S : List (Nat × Nat))
    (hlong : 16 < (erase_scan self S).collection_.length)
    (hinvalid : calgo.orders_strictly (erase_sort_predicate (erase_scan self S))
      (erase_scan self S).collection_ = false) :
    erase_inverse_foreign self S = none := by
  unfold erase_inverse_foreign erase_reorder
  rw [sort_eq_none _ _ hlong hinvalid]

/-- Delete-by-association-set in terms of the state after its scan, whenever the
call has a resulting state `r`: some elements `dropped` of that store are
collapsed away, the others stay; the table loses the entries of the dropped keys;
the reported pairs gain their inverses. -/
theorem erase_inverse_foreign_spec (self : associated_collection) (S : List (Nat × Nat))
    (r : associated_collection) (hr : erase_inverse_foreign self S = some r) :
    ∃ dropped : List Element,
      (∀ e : Element, e ∈ (erase_scan self S).collection_
        ↔ e ∈ r.collection_ ∨ e ∈ dropped) ∧
      (∀ v : Nat × Nat, v ∈ r.associations_
        ↔ v ∈ (erase_scan self S).associations_ ∧ v.1 ∉ dropped.map Element.key) ∧
      (∀ p : Nat × Nat, p ∈ r.foreign_keys_
        ↔ p ∈ (erase_scan self S).foreign_keys_ ∨
          (p.2 ∈ dropped.map Element.key ∧ (p.2, p.1) ∈ (erase_scan self S).associations_)) := by
  obtain ⟨sorted, hsort, hreq⟩ := erase_inverse_foreign_eq_some self S r hr
  rw [hreq]
  obtain ⟨dropped, _, hperm, htab, _, _, hfk⟩ :=
    erase_collapse_spec (put_collection sorted (erase_scan self S))
  have hsortp : sorted.Perm (erase_scan self S).collection_ := sort_perm _ _ _ hsort
  have hperm' : ((erase_collapse (put_collection sorted (erase_scan self S))).collection_
      ++ dropped).Perm sorted := hperm
  refine ⟨dropped, ?_, ?_, ?_⟩
  · intro e
    rw [← hsortp.mem_iff, ← hperm'.mem_iff, List.mem_append]
  · intro v
    rw [htab]
    simp [put_collection]
  · intro p
    exact hfk p

/-- C4. Delete-by-association-set can end without a state for I2 to hold in: the
index `eighteen_one_link` has unique keys, a sorted table and no dangling entry;
severing its one link takes the element 18 out and leaves seventeen elements
without associations, no entry dangling so far; the comparison handed to the sort
holds between every two of them, the partition `std::sort` starts with on more
than sixteen elements reads past the end of the store, `std::sort` has no result,
and the call has no resulting state. -/
theorem no_dangling_no_state_beyond_sixteen :
    unique_keys eighteen_one_link ∧ table_sorted eighteen_one_link ∧
    no_dangling eighteen_one_link ∧
    no_dangling (erase_scan eighteen_one_link [(18, 10)]) ∧
    (erase_scan eighteen_one_link [(18, 10)]).collection_.length = 17 ∧
    calgo.orders_strictly (erase_sort_predicate (erase_scan eighteen_one_link [(18, 10)]))
      (erase_scan eighteen_one_link [(18, 10)]).collection_ = false ∧
    calgo.unguarded_partition_pivot (erase_sort_predicate (erase_scan eighteen_one_link [(18, 10)]))
      (erase_scan eighteen_one_link [(18, 10)]).collection_ = none ∧
    erase_inverse_foreign eighteen_one_link [(18, 10)] = none := by
  decide

/-- C5. An element can survive delete-by-association-set with no association
left: on the index `two_links` (unique keys, sorted table, its element linked
twice), severing both links empties the table and leaves the element in the
store, because `count` is read while the first severed entry is still in the
vector and so is 2 at both entries. -/
theorem erase_set_leaves_unlinked_element :
    unique_keys two_links ∧ table_sorted two_links ∧ every_element_linked two_links ∧
    flat_multimap.count two_links.associations_ 1 = 2 ∧
    (erase_scan two_links [(1, 10), (1, 11)]).collection_ = [⟨1, 0⟩] ∧
    (∃ r : associated_collection,
      erase_inverse_foreign two_links [(1, 10), (1, 11)] = some r ∧
      r.collection_ = [⟨1, 0⟩] ∧ r.associations_ = [] ∧ ¬ every_element_linked r) :=
  ⟨by decide, by decide, by decide, by decide, by decide, _, rfl, by decide, by decide,
    by decide⟩

/-- C6. Two elements with equal association sets can both survive
delete-by-association-set: on the index `interleaved` (unique keys, sorted table)
with nothing to sever, the comparison handed to the sort holds both ways between
the elements 2 and 4 and finds every neighbour in order, the store keeps its
order, the elements 2 and 4 never meet in the collapse and both stay, with equal
association sets. -/
theorem erase_set_leaves_structural_duplicates :
    unique_keys interleaved ∧ table_sorted interleaved ∧
    erase_sort_predicate interleaved ⟨2, 0⟩ ⟨4, 0⟩ = true ∧
    erase_sort_predicate interleaved ⟨4, 0⟩ ⟨2, 0⟩ = true ∧
    erase_sort_predicate interleaved ⟨4, 0⟩ ⟨3, 0⟩ = false ∧
    erase_sort_predicate interleaved ⟨3, 0⟩ ⟨2, 0⟩ = false ∧
    (∃ r : associated_collection, erase_inverse_foreign interleaved [] = some r ∧
      r.collection_ = [⟨1, 0⟩, ⟨2, 0⟩, ⟨3, 0⟩, ⟨4, 0⟩] ∧
      compare_associations r 2 4 = true ∧ ¬ no_structural_duplicates r) :=
  ⟨by decide, by decide, by decide, by decide, by decide, by decide, _, rfl, by decide,
    by decide, by decide⟩

/-- Collapsed elements are reported, whenever delete-by-association-set has a
resulting state `r`: for every element `d` the collapse pass drops (an element of
the store after the scan that is not in the store of `r`), every association
`(d.key, f)` in the table the pass starts from has its inverse `(f, d.key)` in
`foreign_keys_` of `r`, and no entry of key `d.key` is left in the table of `r`. -/
theorem collapsed_elements_reported (self : associated_collection) (S : List (Nat × Nat))
    (r : associated_collection) (hr : erase_inverse_foreign self S = some r) :
    ∀ d ∈ (erase_scan self S).collection_, d ∉ r.collection_ →
      (∀ f : Nat, (d.key, f) ∈ (erase_scan self S).associations_ →
        (f, d.key) ∈ r.foreign_keys_) ∧
      (∀ f : Nat, (d.key, f) ∉ r.associations_) := by
  obtain ⟨dropped, hstore, htab, hfk⟩ := erase_inverse_foreign_spec self S r hr
  intro d hd1 hgone
  have hdrop : d ∈ dropped := by
    rcases (hstore d).mp hd1 with h | h
    · exact absurd h hgone
    · exact h
  have hkey : d.key ∈ dropped.map Element.key := List.mem_map_of_mem _ hdrop
  refine ⟨?_, ?_⟩
  · intro f hf
    rw [hfk]
    exact Or.inr ⟨hkey, hf⟩
  · intro f hf
    rw [htab] at hf
    exact hf.2 hkey

/-- Losing the last association removes the element, whenever
delete-by-association-set has a resulting state `r`: on a sorted table in which the
range of key `k` is the single entry `(k, f)`, with a set `S` containing `(k, f)`,
the store of `r` holds no element of key `k` and the table of `r` no entry of key
`k`. -/
theorem last_association_removes_element (self : associated_collection)
    (S : List (Nat × Nat)) (k f : Nat) (r : associated_collection)
    (htable : table_sorted self)
    (honly : flat_multimap.equal_range self.associations_ k = [(k, f)])
    (hS : (k, f) ∈ S) (hr : erase_inverse_foreign self S = some r) :
    (∀ e ∈ r.collection_, e.key ≠ k) ∧ (∀ v ∈ r.associations_, v.1 ≠ k) := by
  have hbykey := table_sorted_by_key_of_table_sorted htable
  have hentry : (k, f) ∈ self.associations_ := by
    have h : (k, f) ∈ flat_multimap.equal_range self.associations_ k := by
      rw [honly]
      exact List.mem_singleton_self _
    exact (List.mem_filter.mp h).1
  have hcasc : k ∈ cascaded S self.associations_ self.associations_ := by
    rw [mem_cascaded]
    refine ⟨(k, f), hentry, hS, ?_, rfl⟩
    unfold flat_multimap.count
    rw [honly]
    rfl
  obtain ⟨dropped, hstore, htab, _⟩ := erase_inverse_foreign_spec self S r hr
  refine ⟨?_, ?_⟩
  · intro e he hek
    have he1 : e ∈ (erase_scan self S).collection_ := (hstore e).mpr (Or.inl he)
    rw [mem_collection_erase_scan self S hbykey] at he1
    apply he1.2
    rw [hek]
    exact hcasc
  · intro v hv hvk
    rw [htab, mem_associations_erase_scan self S hbykey] at hv
    have hvr : v ∈ flat_multimap.equal_range self.associations_ k := by
      unfold flat_multimap.equal_range
      rw [List.mem_filter]
      exact ⟨hv.1.1, by simp [hvk]⟩
    rw [honly, List.mem_singleton] at hvr
    rw [hvr] at hv
    exact hv.1.2 hS

/-- C9. Losing the last association can end without a state: on the index
`eighteen_one_link` (unique keys, sorted table) the key 18 has exactly one
association, (18, 10); with the set {(18, 10)} the scan severs it and takes the
element 18 out of the store, leaving seventeen elements that the comparison handed
to the sort does not order; the partition `std::sort` starts with reads past the
end of the store, `std::sort` has no result, and the call has no resulting state,
so that no store and no table is left to look the key 18 up in. -/
theorem last_association_no_state_beyond_sixteen :
    unique_keys eighteen_one_link ∧ table_sorted eighteen_one_link ∧
    flat_multimap.equal_range eighteen_one_link.associations_ 18 = [(18, 10)] ∧
    ((18, 10) : Nat × Nat) ∈ [((18 : Nat), (10 : Nat))] ∧
    (∀ e ∈ (erase_scan eighteen_one_link [(18, 10)]).collection_, e.key ≠ 18) ∧
    16 < (erase_scan eighteen_one_link [(18, 10)]).collection_.length ∧
    calgo.unguarded_partition_pivot (erase_sort_predicate (erase_scan eighteen_one_link [(18, 10)]))
      (erase_scan eighteen_one_link [(18, 10)]).collection_ = none ∧
    erase_inverse_foreign eighteen_one_link [(18, 10)] = none := by
  decide

/-- Delete-by-association-set severs every requested link and only shrinks,
whenever it has a resulting state `r`: on a sorted table, no entry of the table of
`r` is a member of `S`, every entry of the table of `r` was an entry before, and
every element of the store of `r` was an element before. -/
theorem erase_set_severs_and_shrinks (self : associated_collection) (S : List (Nat × Nat))
    (r : associated_collection) (htable : table_sorted self)
    (hr : erase_inverse_foreign self S = some r) :
    (∀ v ∈ r.associations_, v ∉ S) ∧
    (∀ v ∈ r.associations_, v ∈ self.associations_) ∧
    (∀ e ∈ r.collection_, e ∈ self.collection_) := by
  have hbykey := table_sorted_by_key_of_table_sorted htable
  obtain ⟨dropped, hstore, htab, _⟩ := erase_inverse_foreign_spec self S r hr
  refine ⟨?_, ?_, ?_⟩
  · intro v hv
    rw [htab, mem_associations_erase_scan self S hbykey] at hv
    exact hv.1.2
  · intro v hv
    rw [htab, mem_associations_erase_scan self S hbykey] at hv
    exact hv.1.1
  · intro e he
    have he1 : e ∈ (erase_scan self S).collection_ := (hstore e).mpr (Or.inl he)
    rw [mem_collection_erase_scan self S hbykey] at he1
    exact he1.1

/-- C10. Delete-by-association-set can end without a state: on the index
`eighteen_one_link` (sorted table) with the set {(18, 10)} the scan severs the
requested link, the table being empty after it, and leaves seventeen elements in
the store; the comparison handed to the sort holds both ways between the
elements 1 and 2, it does not order the store, the partition `std::sort` starts
with on more than sixteen elements reads past the end of the store, `std::sort`
has no result, and the call has no resulting state: no table and no store is left
to compare with the ones before the call. -/
theorem severs_and_shrinks_no_state_beyond_sixteen :
    table_sorted eighteen_one_link ∧
    (erase_scan eighteen_one_link [(18, 10)]).associations_ = [] ∧
    (erase_scan eighteen_one_link [(18, 10)]).collection_.length = 17 ∧
    erase_sort_predicate (erase_scan eighteen_one_link [(18, 10)]) ⟨1, 0⟩ ⟨2, 0⟩ = true ∧
    erase_sort_predicate (erase_scan eighteen_one_link [(18, 10)]) ⟨2, 0⟩ ⟨1, 0⟩ = true ∧
    calgo.ranks_apart (erase_sort_predicate (erase_scan eighteen_one_link [(18, 10)]))
      (erase_scan eighteen_one_link [(18, 10)]).collection_ = false ∧
    calgo.unguarded_partition_pivot (erase_sort_predicate (erase_scan eighteen_one_link [(18, 10)]))
      (erase_scan eighteen_one_link [(18, 10)]).collection_ = none ∧
    erase_inverse_foreign eighteen_one_link [(18, 10)] = none := by
  decide

/-! ### Delete-by-key on an absent key, and twice -/

/-- Delete-by-key of a key no element has returns the state as it was. -/
theorem erase_of_absent (self : associated_collection) (k : Nat)
    (habsent : ∀ e ∈ self.collection_, e.key ≠ k) : erase self k = self := by
  have hany : ¬ self.collection_.any (fun e => e.key == k) = true := by
    rw [List.any_eq_true]
    rintro ⟨e, he, hek⟩
    exact habsent e he (by simpa using hek)
  rw [erase_eq, if_neg hany]

/-- C14. Deleting an absent key is a silent no-op: for every index and every key `k`
that no element of the store has, `erase(k)` leaves the whole state as it was (the
store, the table, the contributors and `foreign_keys_`), and the returned
`foreign_keys_` is the one held before the call. -/
theorem erase_absent_key_noop (self : associated_collection) (k : Nat)
    (habsent : ∀ e ∈ self.collection_, e.key ≠ k) :
    erase self k = self ∧
    (erase self k).collection_ = self.collection_ ∧
    (erase self k).associations_ = self.associations_ ∧
    (erase self k).contributors_ = self.contributors_ ∧
    (erase self k).foreign_keys_ = self.foreign_keys_ := by
  have h : erase self k = self := erase_of_absent self k habsent
  rw [h]
  exact ⟨rfl, rfl, rfl, rfl, rfl⟩

/-- The scenario of the specification holds no element of key 7: deleting key 7
changes nothing. -/
theorem erase_absent_key_noop_witness :
    (∀ e ∈ scenario_aba.collection_, e.key ≠ 7) ∧ erase scenario_aba 7 = scenario_aba :=
  ⟨by decide, (erase_absent_key_noop scenario_aba 7 (by decide)).1⟩

/-- C15. Idempotent delete: for every index with a sorted table and every key `k`,
`erase(k)` applied twice gives exactly the state `erase(k)` applied once gives (the
store, the table, `foreign_keys_` and the rest); the second call adds nothing to
`foreign_keys_`, and every pair reported before the first call is still reported
after it. -/
theorem erase_key_idempotent (self : associated_collection) (k : Nat)
    (_htable : table_sorted self) :
    erase (erase self k) k = erase self k ∧
    (erase (erase self k) k).foreign_keys_ = (erase self k).foreign_keys_ ∧
    (∀ p ∈ self.foreign_keys_, p ∈ (erase self k).foreign_keys_) := by
  have habsent : ∀ e ∈ (erase self k).collection_, e.key ≠ k := by
    intro e he
    rw [erase_eq] at he
    by_cases hany : self.collection_.any (fun e => e.key == k) = true
    · rw [if_pos hany] at he
      have he' : e ∈ self.collection_.filter (fun e => !(e.key == k)) := he
      rw [List.mem_filter] at he'
      simpa using he'.2
    · rw [if_neg hany] at he
      rw [List.any_eq_true] at hany
      intro hek
      exact hany ⟨e, he, by simp [hek]⟩
  have h := erase_of_absent (erase self k) k habsent
  refine ⟨h, by rw [h], ?_⟩
  intro p hp
  rw [erase_eq]
  by_cases hany : self.collection_.any (fun e => e.key == k) = true
  · rw [if_pos hany]
    show p ∈ (retract_key self k).foreign_keys_
    rw [mem_foreign_keys_retract_key]
    exact Or.inl hp
  · rw [if_neg hany]
    exact hp

/-- The scenario of the specification: deleting key 2 a second time changes
nothing; the pair `(B, 2)` is reported by the first call. -/
theorem erase_key_idempotent_witness :
    table_sorted scenario_aba ∧
    erase (erase scenario_aba 2) 2 = erase scenario_aba 2 ∧
    (erase scenario_aba 2).foreign_keys_ = [(11, 2)] :=
  ⟨by decide, (erase_key_idempotent scenario_aba 2 (by decide)).1, by decide⟩

/-! ### `visit` in an arbitrary state -/

/-- The merge loop of `visit` invokes the operation only on a match: whatever the
two sequences and the fuel, every element in its output is an element of the
store part that has the entry `(key, foreign_key)` in the table part. -/
theorem visit_loop_sound (foreign_key : Nat) :
    ∀ (fuel : Nat) (es : List Element) (bs : List (Nat × Nat)) (e : Element),
      e ∈ calgo.set_intersection_loop (visit_comp12 foreign_key) (visit_comp21 foreign_key)
        fuel es bs →
      e ∈ es ∧ (e.key, foreign_key) ∈ bs := by
  intro fuel
  induction fuel with
  | zero =>
    intro es bs e he
    simp [calgo.set_intersection_loop] at he
  | succ n ih =>
    intro es bs e he
    cases es with
    | nil => simp [calgo.set_intersection_loop] at he
    | cons a es1 =>
      cases bs with
      | nil => simp [calgo.set_intersection_loop] at he
      | cons b bs1 =>
        by_cases hm : b.2 = foreign_key ∧ b.1 = a.key
        · have hbeq : b = (a.key, foreign_key) := Prod.ext hm.2 hm.1
          simp only [calgo.set_intersection_loop, visit_comp12, visit_comp21, calgo.value,
            calgo.key, hm, and_self, if_true, Bool.not_false, Bool.false_eq_true, if_false,
            List.mem_cons] at he
          rcases he with he | he
          · rw [he, hbeq]
            exact ⟨List.mem_cons_self _ _, List.mem_cons_self _ _⟩
          · have h := ih es1 bs1 e he
            exact ⟨List.mem_cons_of_mem _ h.1, List.mem_cons_of_mem _ h.2⟩
        · by_cases hlt : a.key < b.1
          · simp only [calgo.set_intersection_loop, visit_comp12, calgo.value,
              calgo.key, hm, if_false, hlt, decide_True, if_true] at he
            have h := ih es1 (b :: bs1) e he
            exact ⟨List.mem_cons_of_mem _ h.1, h.2⟩
          · simp only [calgo.set_intersection_loop, visit_comp12, visit_comp21, calgo.value,
              calgo.key, hm, if_false, hlt, decide_False, Bool.not_false, Bool.not_true,
              Bool.false_eq_true] at he
            have h := ih (a :: es1) bs1 e he
            exact ⟨h.1, List.mem_cons_of_mem _ h.2⟩

/-- C16. `visit` never touches a non-matching element, in any state: whatever the
order of the store and of the table, every element `visit(f, op)` invokes `op` on
is an element of the store that has an entry `(key, f)` in the table; in
particular, when no entry of the table has the foreign key `f`, `op` is invoked
zero times. -/
theorem visit_only_matching (self : associated_collection) (f : Nat) :
    (∀ e ∈ visit self f, e ∈ self.collection_ ∧ (e.key, f) ∈ self.associations_) ∧
    ((∀ v ∈ self.associations_, v.2 ≠ f) → visit self f = []) := by
  have hsound : ∀ e ∈ visit self f, e ∈ self.collection_ ∧ (e.key, f) ∈ self.associations_ :=
    fun e he => visit_loop_sound f _ self.collection_ self.associations_ e he
  refine ⟨hsound, ?_⟩
  intro hnone
  rw [List.eq_nil_iff_forall_not_mem]
  intro e he
  exact hnone _ (hsound e he).2 rfl

/-- The scenario of the specification has no entry of foreign key 12: visiting 12
invokes the operation on nothing. -/
theorem visit_only_matching_witness :
    (∀ v ∈ scenario_aba.associations_, v.2 ≠ 12) ∧ visit scenario_aba 12 = [] :=
  ⟨by decide, (visit_only_matching scenario_aba 12).2 (by decide)⟩

/-! ### Two structural duplicates under the empty set -/

theorem equal_values_symm {α β : Type} [DecidableEq β] :
    ∀ (l1 l2 : List (α × β)), calgo.equal_values l1 l2 = calgo.equal_values l2 l1 := by
  intro l1
  induction l1 with
  | nil =>
    intro l2
    cases l2 <;> rfl
  | cons a rest ih =>
    intro l2
    cases l2 with
    | nil => rfl
    | cons b rest2 =>
      simp only [calgo.equal_values]
      rw [ih rest2]
      by_cases h : calgo.value a = calgo.value b
      · simp [h]
      · have h' : ¬ calgo.value b = calgo.value a := fun hh => h hh.symm
        simp [h, h']

theorem compare_associations_symm (self : associated_collection) (a b : Nat) :
    compare_associations self a b = compare_associations self b a :=
  equal_values_symm _ _

/-- With nothing to sever the scan changes nothing. -/
theorem erase_scan_nil (self : associated_collection) (htable : table_sorted_by_key self) :
    erase_scan self [] = self := by
  rw [erase_scan_eq self [] htable]
  have h1 : self.associations_.filter (fun v => !(calgo.contains ([] : List (Nat × Nat)) v))
      = self.associations_ := by
    rw [List.filter_eq_self]
    intro v _
    rfl
  rw [h1]
  simp [cascaded, calgo.contains, without_keys, put_associations]

/-- Delete-by-association-set with the empty set on a store of two elements with
equal association ranges: the second element stays, the first is retracted. -/
theorem erase_inverse_foreign_nil_pair (self : associated_collection) (X Y : Element)
    (htable : table_sorted_by_key self) (hstore : self.collection_ = [X, Y])
    (hequal : compare_associations self X.key Y.key = true) :
    erase_inverse_foreign self [] = some (put_collection [Y] (retract_key self X.key)) := by
  have hyx : compare_associations self Y.key X.key = true := by
    rw [compare_associations_symm]
    exact hequal
  have hscan := erase_scan_nil self htable
  have hsort : calgo.sort (erase_scan self []).collection_
      (erase_sort_predicate (erase_scan self [])) = some [Y, X] := by
    rw [hscan, hstore]
    simp [calgo.sort, calgo.insertion_sort, calgo.linear_insert, erase_sort_predicate, hyx]
  rw [erase_inverse_foreign_of_sort self [] [Y, X] hsort, hscan]
  have hcmp : compare_associations (put_collection [Y, X] self) Y.key X.key = true := hyx
  apply congrArg some
  unfold erase_collapse calgo.erase_duplicates_if
  show (match [Y, X] with
    | [] => put_collection [] (put_collection [Y, X] self)
    | first :: rest =>
      put_collection
        (calgo.unique_loop erase_collapse_predicate (put_collection [Y, X] self) [first] first
          rest).2
        (calgo.unique_loop erase_collapse_predicate (put_collection [Y, X] self) [first] first
          rest).1) = _
  simp only [calgo.unique_loop, erase_collapse_predicate_eq, hcmp, if_true]
  rfl

/-- C11, as stated, fails: the index `scenario_xy_extra` holds exactly the two
elements 1 and 2, with the equal non-empty ranges {10, 11}, and the table also
holds the entry (3, 12); inserts and links reach it from the empty index.
Delete-by-association-set with the empty set leaves the element 2 alone in the
store and reports the pairs of the element 1, but the table keeps (3, 12), which
is not an entry of the survivor. -/
theorem duplicates_merge_keeps_other_entries :
    run [call.insert ⟨1, 0⟩, call.insert ⟨2, 0⟩, call.link 1 10, call.link 1 11,
      call.link 2 10, call.link 2 11, call.link 3 12] = some scenario_xy_extra ∧
    table_sorted scenario_xy_extra ∧
    scenario_xy_extra.collection_ = [⟨1, 0⟩, ⟨2, 0⟩] ∧
    flat_multimap.equal_range scenario_xy_extra.associations_ 1 = [(1, 10), (1, 11)] ∧
    flat_multimap.equal_range scenario_xy_extra.associations_ 2 = [(2, 10), (2, 11)] ∧
    compare_associations scenario_xy_extra 1 2 = true ∧
    (∃ r : associated_collection, erase_inverse_foreign scenario_xy_extra [] = some r ∧
      r.collection_ = [⟨2, 0⟩] ∧
      r.associations_ = [(2, 10), (2, 11), (3, 12)] ∧
      r.associations_ ≠ flat_multimap.equal_range scenario_xy_extra.associations_ 2) :=
  ⟨by decide, by decide, by decide, by decide, by decide, by decide, _, rfl, by decide,
    by decide, by decide⟩

/-- C11, amended. Two structural duplicates merge under an empty removal set: for
every index with a sorted table whose store holds exactly two elements `X` and `Y`
of distinct keys, whose table holds entries of these two keys only, and whose two
ranges are non-empty and have the same foreign keys, `erase` with the empty set
leaves a state with exactly one of the two in the store, in the table exactly the
entries of the survivor, and a pair in `foreign_keys_` exactly when it was there
before or is `(f, d)` for an entry `(d, f)` of the dropped element. -/
theorem duplicates_merge (self : associated_collection) (X Y : Element)
    (htable : table_sorted self) (hstore : self.collection_ = [X, Y])
    (hdistinct : X.key ≠ Y.key)
    (honly : ∀ v ∈ self.associations_, v.1 = X.key ∨ v.1 = Y.key)
    (_hnonempty : flat_multimap.equal_range self.associations_ X.key ≠ [])
    (hequal : compare_associations self X.key Y.key = true) :
    ∃ (survivor dropped : Element) (r : associated_collection),
      ((survivor = X ∧ dropped = Y) ∨ (survivor = Y ∧ dropped = X)) ∧
      erase_inverse_foreign self [] = some r ∧
      r.collection_ = [survivor] ∧
      r.associations_ = flat_multimap.equal_range self.associations_ survivor.key ∧
      (∀ p : Nat × Nat, p ∈ r.foreign_keys_
        ↔ p ∈ self.foreign_keys_ ∨
          (p.2 = dropped.key ∧ (dropped.key, p.1) ∈ self.associations_)) := by
  have h := erase_inverse_foreign_nil_pair self X Y
    (table_sorted_by_key_of_table_sorted htable) hstore hequal
  refine ⟨Y, X, _, Or.inr ⟨rfl, rfl⟩, h, rfl, ?_, ?_⟩
  · show flat_multimap.erase_range self.associations_ X.key
      = flat_multimap.equal_range self.associations_ Y.key
    unfold flat_multimap.erase_range flat_multimap.equal_range
    apply List.filter_congr
    intro v hv
    rcases honly v hv with hk | hk
    · simp [hk, hdistinct]
    · simp [hk, Ne.symm hdistinct]
  · intro p
    show p ∈ (retract_key self X.key).foreign_keys_ ↔ _
    rw [mem_foreign_keys_retract_key]
    constructor
    · rintro (hp | ⟨h1, h2⟩)
      · exact Or.inl hp
      · right
        refine ⟨h1, ?_⟩
        rw [← h1]
        exact h2
    · rintro (hp | ⟨h1, h2⟩)
      · exact Or.inl hp
      · right
        refine ⟨h1, ?_⟩
        rw [h1]
        exact h2

/-- The second scenario of the specification, X and Y both linked to A and B: the
call with the empty set leaves one element, the entries of the element 2, and
reports `(A, 1)` and `(B, 1)`. -/
theorem duplicates_merge_witness :
    table_sorted scenario_xy ∧
    erase_inverse_foreign scenario_xy []
      = some ⟨[⟨2, 0⟩], [(2, 10), (2, 11)], [], [], [(10, 1), (11, 1)]⟩ ∧
    (∃ (survivor dropped : Element) (r : associated_collection),
      ((survivor = ⟨1, 0⟩ ∧ dropped = ⟨2, 0⟩) ∨ (survivor = ⟨2, 0⟩ ∧ dropped = ⟨1, 0⟩)) ∧
      erase_inverse_foreign scenario_xy [] = some r ∧
      r.collection_ = [survivor] ∧
      r.associations_ = flat_multimap.equal_range scenario_xy.associations_ survivor.key ∧
      (∀ p : Nat × Nat, p ∈ r.foreign_keys_
        ↔ p ∈ scenario_xy.foreign_keys_ ∨
          (p.2 = dropped.key ∧ (dropped.key, p.1) ∈ scenario_xy.associations_))) :=
  ⟨by decide, by decide,
    duplicates_merge scenario_xy ⟨1, 0⟩ ⟨2, 0⟩ (by decide) rfl (by decide) (by decide)
      (by decide) (by decide)⟩

/-! ### The binary search of the flat containers -/

/-- On a sequence that is split by `go_right` (it holds of every element of the
first part and of none of the second), the binary search returns the split
point, from every window that contains it and with fuel for the window. -/
theorem bound_loop_partition {α : Type} (g : α → Bool) (l1 l2 : List α)
    (h1 : ∀ x ∈ l1, g x = true) (h2 : ∀ x ∈ l2, g x = false) :
    ∀ (fuel first len : Nat), len ≤ fuel → first ≤ l1.length → l1.length ≤ first + len →
      first + len ≤ (l1 ++ l2).length →
      flat_tree.bound_loop g (l1 ++ l2) fuel first len = l1.length := by
  intro fuel
  induction fuel with
  | zero =>
    intro first len hfuel hlo hhi _
    unfold flat_tree.bound_loop
    omega
  | succ n ih =>
    intro first len hfuel hlo hhi hbound
    unfold flat_tree.bound_loop
    by_cases hlen : len = 0
    · rw [if_pos hlen]
      omega
    · rw [if_neg hlen]
      have hdiv : len / 2 < len := Nat.div_lt_self (Nat.pos_of_ne_zero hlen) (by omega)
      have hmid : first + len / 2 < (l1 ++ l2).length := by omega
      rw [List.getElem?_eq_getElem hmid]
      simp only
      by_cases hside : first + len / 2 < l1.length
      · have hmem : (l1 ++ l2)[first + len / 2] ∈ l1 := by
          rw [List.getElem_append_left hside]
          exact List.getElem_mem _
        rw [if_pos (h1 _ hmem)]
        exact ih _ _ (by omega) (by omega) (by omega) (by omega)
      · have hge : l1.length ≤ first + len / 2 := by omega
        have hmem : (l1 ++ l2)[first + len / 2] ∈ l2 := by
          rw [List.getElem_append_right hge]
          exact List.getElem_mem _
        have hfalse : g (l1 ++ l2)[first + len / 2] = false := h2 _ hmem
        rw [hfalse]
        simp only [Bool.false_eq_true, if_false]
        exact ih _ _ (by omega) (by omega) (by omega) (by omega)

/-- `lower_bound(k)` on a sequence whose first part holds the keys less than `k` and
whose second part holds the others is the length of the first part. -/
theorem lower_bound_partition {α : Type} (key_of : α → Nat) (l1 l2 : List α) (k : Nat)
    (h1 : ∀ x ∈ l1, key_of x < k) (h2 : ∀ x ∈ l2, k ≤ key_of x) :
    flat_tree.lower_bound key_of (l1 ++ l2) k = l1.length := by
  unfold flat_tree.lower_bound
  apply bound_loop_partition
  · intro x hx
    simpa using h1 x hx
  · intro x hx
    simpa using h2 x hx
  · exact Nat.le_refl _
  · exact Nat.zero_le _
  · simp
  · simp

/-- `upper_bound(k)` on a sequence whose first part holds the keys up to `k` and
whose second part holds the greater ones is the length of the first part. -/
theorem upper_bound_partition {α : Type} (key_of : α → Nat) (l1 l2 : List α) (k : Nat)
    (h1 : ∀ x ∈ l1, key_of x ≤ k) (h2 : ∀ x ∈ l2, k < key_of x) :
    flat_tree.upper_bound key_of (l1 ++ l2) k = l1.length := by
  unfold flat_tree.upper_bound
  apply bound_loop_partition
  · intro x hx
    have := h1 x hx
    simpa using this
  · intro x hx
    have := h2 x hx
    simpa using this
  · exact Nat.le_refl _
  · exact Nat.zero_le _
  · simp
  · simp

/-- A sequence ascending by key splits, at every `k`, into the keys less than `k`
and the keys from `k` on. -/
theorem sorted_split {α : Type} (key_of : α → Nat) (k : Nat) :
    ∀ (l : List α), l.Pairwise (fun a b => key_of a ≤ key_of b) →
      ∃ l1 l2, l = l1 ++ l2 ∧ (∀ x ∈ l1, key_of x < k) ∧ (∀ x ∈ l2, k ≤ key_of x) := by
  intro l
  induction l with
  | nil =>
    intro _
    exact ⟨[], [], rfl, by simp, by simp⟩
  | cons x t ih =>
    intro hs
    have hx := (List.pairwise_cons.mp hs).1
    have ht := (List.pairwise_cons.mp hs).2
    by_cases hlt : key_of x < k
    · obtain ⟨l1, l2, heq, h1, h2⟩ := ih ht
      refine ⟨x :: l1, l2, by rw [heq]; rfl, ?_, h2⟩
      intro y hy
      rcases List.mem_cons.mp hy with hy | hy
      · rw [hy]
        exact hlt
      · exact h1 y hy
    · refine ⟨[], x :: t, rfl, by simp, ?_⟩
      intro y hy
      rcases List.mem_cons.mp hy with hy | hy
      · rw [hy]
        omega
      · have hxy : key_of x ≤ key_of y := hx y hy
        omega

/-! ### Insert -/

/-- `flat_set::emplace` on a store split at the key of the value: the value goes
between the two parts unless the second part starts with an element of its key. -/
theorem flat_set_emplace_split_nil (l1 : List Element) (value : Element)
    (h1 : ∀ x ∈ l1, x.key < value.key) :
    flat_set.emplace (l1 ++ []) value = l1 ++ [value] := by
  unfold flat_set.emplace
  rw [lower_bound_partition Element.key l1 [] value.key h1 (by simp), List.take_left,
    List.drop_left, List.getElem?_append_right (Nat.le_refl _), Nat.sub_self]
  rfl

theorem flat_set_emplace_split_cons (l1 : List Element) (x : Element) (t : List Element)
    (value : Element)
    (h1 : ∀ y ∈ l1, y.key < value.key) (h2 : ∀ y ∈ x :: t, value.key ≤ y.key) :
    flat_set.emplace (l1 ++ x :: t) value
      = if value.key < x.key then l1 ++ value :: x :: t else l1 ++ x :: t := by
  unfold flat_set.emplace
  rw [lower_bound_partition Element.key l1 (x :: t) value.key h1 h2, List.take_left,
    List.drop_left, List.getElem?_append_right (Nat.le_refl _), Nat.sub_self,
    List.getElem?_cons_zero]

theorem sorted_key_unique :
    ∀ (l : List Element), l.Pairwise (fun a b => a.key < b.key) →
      ∀ x ∈ l, ∀ y ∈ l, x.key = y.key → x = y := by
  intro l
  induction l with
  | nil =>
    intro _ x hx
    exact absurd hx (List.not_mem_nil x)
  | cons a t ih =>
    intro hs x hx y hy hxy
    have ha := (List.pairwise_cons.mp hs).1
    have ht := (List.pairwise_cons.mp hs).2
    rcases List.mem_cons.mp hx with hx | hx
    · rcases List.mem_cons.mp hy with hy | hy
      · rw [hx, hy]
      · have hlt : a.key < y.key := ha y hy
        rw [hx] at hxy
        omega
    · rcases List.mem_cons.mp hy with hy | hy
      · have hlt : a.key < x.key := ha x hx
        rw [hy] at hxy
        omega
      · exact ih ht x hx y hy hxy

theorem store_sorted_split (self : associated_collection) (hs : store_sorted self) (k : Nat) :
    ∃ l1 l2, self.collection_ = l1 ++ l2 ∧ (∀ x ∈ l1, x.key < k) ∧ (∀ x ∈ l2, k ≤ x.key) := by
  apply sorted_split Element.key k
  refine List.Pairwise.imp ?_ hs
  intro a b hab
  exact Nat.le_of_lt hab

/-- Insert keeps the store strictly ascending by key. -/
theorem emplace_store_sorted (self : associated_collection) (value : Element)
    (hs : store_sorted self) : store_sorted (emplace self value) := by
  obtain ⟨l1, l2, heq, h1, h2⟩ := store_sorted_split self hs value.key
  have hpw : (l1 ++ l2).Pairwise (fun a b => a.key < b.key) := by
    rw [← heq]
    exact hs
  show (flat_set.emplace self.collection_ value).Pairwise (fun a b => a.key < b.key)
  rw [heq]
  rw [List.pairwise_append] at hpw
  obtain ⟨hp1, hp2, hcross⟩ := hpw
  cases l2 with
  | nil =>
    rw [flat_set_emplace_split_nil l1 value h1]
    rw [List.pairwise_append]
    refine ⟨hp1, List.pairwise_singleton _ _, ?_⟩
    intro a ha b hb
    rw [List.mem_singleton] at hb
    rw [hb]
    exact h1 a ha
  | cons x t =>
    rw [flat_set_emplace_split_cons l1 x t value h1 h2]
    by_cases hlt : value.key < x.key
    · rw [if_pos hlt, List.pairwise_append]
      refine ⟨hp1, ?_, ?_⟩
      · rw [List.pairwise_cons]
        refine ⟨?_, hp2⟩
        intro b hb
        rcases List.mem_cons.mp hb with hb | hb
        · rw [hb]
          exact hlt
        · have hxb : x.key < b.key := (List.pairwise_cons.mp hp2).1 b hb
          omega
      · intro a ha b hb
        rcases List.mem_cons.mp hb with hb | hb
        · rw [hb]
          exact h1 a ha
        · exact hcross a ha b hb
    · rw [if_neg hlt, List.pairwise_append]
      exact ⟨hp1, hp2, hcross⟩

theorem unique_keys_of_store_sorted {self : associated_collection} (hs : store_sorted self) :
    unique_keys self := by
  refine List.Pairwise.imp ?_ hs
  intro a b hab
  exact Nat.ne_of_lt hab

/-- A property that a state has and every call of a sequence keeps holds of the
state the sequence reaches from it. -/
theorem run_from_invariant (P : associated_collection → Prop) :
    ∀ (calls : List call) (s t : associated_collection),
      (∀ u c v, c ∈ calls → P u → step u c = some v → P v) → P s →
      run_from s calls = some t → P t := by
  intro calls
  induction calls with
  | nil =>
    intro s t _ hs ht
    rw [← Option.some.inj ht]
    exact hs
  | cons c rest ih =>
    intro s t hl hs ht
    unfold run_from at ht
    cases hstep : step s c with
    | none =>
      rw [hstep] at ht
      simp at ht
    | some next =>
      rw [hstep] at ht
      apply ih next t _ _ ht
      · intro u d v hd hu
        exact hl u d v (List.mem_cons_of_mem _ hd) hu
      · exact hl s c next (List.mem_cons_self _ _) hs hstep

/-- A property that the empty index has and every call of a sequence keeps holds
of the state the sequence reaches. -/
theorem run_invariant (P : associated_collection → Prop) (calls : List call)
    (t : associated_collection) (hempty : P empty)
    (hstep : ∀ s c v, c ∈ calls → P s → step s c = some v → P v)
    (ht : run calls = some t) : P t :=
  run_from_invariant P calls empty t hstep hempty ht

/-- A sequence of calls without a delete-by-association-set reaches a state. -/
theorem run_from_without_reorder :
    ∀ (calls : List call) (s : associated_collection),
      calls.all (fun c => !(call.reorders c)) = true →
      ∃ t : associated_collection, run_from s calls = some t := by
  intro calls
  induction calls with
  | nil =>
    intro s _
    exact ⟨s, rfl⟩
  | cons c rest ih =>
    intro s hall
    rw [List.all_cons, Bool.and_eq_true] at hall
    cases c with
    | insert value => exact ih _ hall.2
    | link k f => exact ih _ hall.2
    | delete_by_key k => exact ih _ hall.2
    | delete_by_association_set S => simp [call.reorders] at hall

/-- C12. Uniqueness under insertion (I1): every finite sequence of insert calls
applied to the empty index reaches a state, and in it the store holds no two
elements of equal key (it is strictly ascending by key). The sequence being
arbitrary, this holds after every call of it. -/
theorem inserts_keep_unique_keys (values : List Element) :
    ∃ t : associated_collection, run (values.map call.insert) = some t ∧
      unique_keys t ∧ store_sorted t := by
  obtain ⟨t, ht⟩ := run_from_without_reorder (values.map call.insert) empty (by
    rw [List.all_eq_true]
    intro c hc
    rw [List.mem_map] at hc
    obtain ⟨v, _, hv⟩ := hc
    rw [← hv]
    rfl)
  have hsorted : store_sorted t := by
    apply run_invariant store_sorted (values.map call.insert) t _ _ ht
    · exact List.Pairwise.nil
    · intro s c v hc hs hv
      rw [List.mem_map] at hc
      obtain ⟨x, _, hx⟩ := hc
      rw [← hx] at hv
      rw [← Option.some.inj hv]
      exact emplace_store_sorted s x hs
  exact ⟨t, ht, unique_keys_of_store_sorted hsorted, hsorted⟩

/-- C13. Duplicate insert is a first-write-wins no-op: when the store is sorted by
key and holds the element `first`, the insert of any element `value` of the same
key leaves the whole state as it was (the store with its elements, their order
and its size, the table, `foreign_keys_`), and the element stored under that key
is still `first`. -/
theorem emplace_duplicate_noop (self : associated_collection) (first value : Element)
    (hs : store_sorted self) (hfirst : first ∈ self.collection_)
    (hkey : value.key = first.key) :
    emplace self value = self ∧
    (emplace self value).collection_ = self.collection_ ∧
    (emplace self value).collection_.length = self.collection_.length ∧
    (emplace self value).associations_ = self.associations_ ∧
    (emplace self value).foreign_keys_ = self.foreign_keys_ ∧
    (∀ x ∈ (emplace self value).collection_, x.key = value.key → x = first) := by
  obtain ⟨l1, l2, heq, h1, h2⟩ := store_sorted_split self hs value.key
  have hpw : (l1 ++ l2).Pairwise (fun a b => a.key < b.key) := by
    rw [← heq]
    exact hs
  have hstore : flat_set.emplace self.collection_ value = self.collection_ := by
    rw [heq]
    have hmem : first ∈ l2 := by
      rw [heq] at hfirst
      rcases List.mem_append.mp hfirst with h | h
      · have hlt := h1 first h
        omega
      · exact h
    cases l2 with
    | nil => exact absurd hmem (List.not_mem_nil first)
    | cons x t =>
      rw [flat_set_emplace_split_cons l1 x t value h1 h2]
      have hnot : ¬ value.key < x.key := by
        rcases List.mem_cons.mp hmem with h | h
        · rw [← h]
          omega
        · have hp2 := (List.pairwise_append.mp hpw).2.1
          have hxf : x.key < first.key := (List.pairwise_cons.mp hp2).1 first h
          omega
      rw [if_neg hnot]
  have hself : emplace self value = self := by
    unfold emplace
    rw [hstore]
  rw [hself]
  refine ⟨rfl, rfl, rfl, rfl, rfl, ?_⟩
  intro x hx hxk
  exact sorted_key_unique self.collection_ hs x hx first hfirst (by omega)

/-- The scenario of the specification holds the element of key 2 and payload 0: the
insert of an element of key 2 and payload 5 changes nothing. -/
theorem emplace_duplicate_noop_witness :
    store_sorted scenario_aba ∧ (⟨2, 0⟩ : Element) ∈ scenario_aba.collection_ ∧
    emplace scenario_aba ⟨2, 5⟩ = scenario_aba :=
  ⟨by decide, by decide,
    (emplace_duplicate_noop scenario_aba ⟨2, 0⟩ ⟨2, 5⟩ (by decide) (by decide) rfl).1⟩

/-! ### Link -/

/-- The insertion step on a range split by `comp val`: the value goes between the
elements it is not less than and the elements it is less than. -/
theorem linear_insert_partition {α : Type} (comp : α → α → Bool) (val : α) (A B : List α)
    (hA : ∀ a ∈ A, comp val a = false) (hB : ∀ b ∈ B, comp val b = true) :
    calgo.linear_insert comp val (A ++ B) = A ++ val :: B := by
  cases A with
  | nil =>
    cases B with
    | nil => rfl
    | cons b B1 =>
      have hb : comp val b = true := hB b (List.mem_cons_self _ _)
      simp [calgo.linear_insert, hb]
  | cons a A1 =>
    have ha : comp val a = false := hA a (List.mem_cons_self _ _)
    have hrev : (a :: (A1 ++ B)).reverse = B.reverse ++ (a :: A1).reverse := by
      simp
    have hBrev : ∀ b ∈ B.reverse, comp val b = true := by
      intro b hb
      exact hB b (List.mem_reverse.mp hb)
    have hArev : ∀ x ∈ (a :: A1).reverse, comp val x = false := by
      intro x hx
      exact hA x (List.mem_reverse.mp hx)
    have htake : ((a :: A1).reverse).takeWhile (comp val) = [] := by
      cases hl : (a :: A1).reverse with
      | nil => rfl
      | cons y _ =>
        have hy : comp val y = false := hArev y (by rw [hl]; exact List.mem_cons_self _ _)
        simp [List.takeWhile, hy]
    have hdrop : ((a :: A1).reverse).dropWhile (comp val) = (a :: A1).reverse := by
      cases hl : (a :: A1).reverse with
      | nil => rfl
      | cons y _ =>
        have hy : comp val y = false := hArev y (by rw [hl]; exact List.mem_cons_self _ _)
        simp [List.dropWhile, hy]
    show calgo.linear_insert comp val (a :: (A1 ++ B)) = a :: A1 ++ val :: B
    unfold calgo.linear_insert
    simp only [ha, Bool.false_eq_true, if_false]
    rw [hrev, List.takeWhile_append_of_pos hBrev, List.dropWhile_append_of_pos hBrev, htake,
      hdrop]
    simp

/-- The insertion sort leaves alone a range in which no element is less than an
earlier one. -/
theorem insertion_sort_of_sorted {α : Type} (comp : α → α → Bool) :
    ∀ (rest sorted : List α), (sorted ++ rest).Pairwise (fun a b => comp b a = false) →
      calgo.insertion_sort comp sorted rest = sorted ++ rest := by
  intro rest
  induction rest with
  | nil =>
    intro sorted _
    simp [calgo.insertion_sort]
  | cons v rest ih =>
    intro sorted hpw
    unfold calgo.insertion_sort
    have hv : ∀ a ∈ sorted, comp v a = false := by
      intro a ha
      exact (List.pairwise_append.mp hpw).2.2 a ha v (List.mem_cons_self _ _)
    have hins : calgo.linear_insert comp v sorted = sorted ++ [v] := by
      have h := linear_insert_partition comp v sorted [] hv (by simp)
      simpa using h
    rw [hins, ih (sorted ++ [v]) (by simpa using hpw)]
    simp

theorem insertion_sort_append_singleton {α : Type} (comp : α → α → Bool) (x : α) :
    ∀ (l sorted : List α),
      calgo.insertion_sort comp sorted (l ++ [x])
        = calgo.linear_insert comp x (calgo.insertion_sort comp sorted l) := by
  intro l
  induction l with
  | nil =>
    intro sorted
    simp [calgo.insertion_sort]
  | cons v l ih =>
    intro sorted
    simp only [List.cons_append, calgo.insertion_sort]
    exact ih _

/-- A table sorted by (key, foreign key) splits around an entry `(k, f)`: the
smaller keys, the entries of `k` up to `f`, the entries of `k` beyond `f`, the
greater keys. -/
theorem table_split (t : List (Nat × Nat))
    (hs : t.Pairwise (fun a b => a.1 < b.1 ∨ (a.1 = b.1 ∧ a.2 ≤ b.2))) (k f : Nat) :
    ∃ l1 A B l3, t = l1 ++ (A ++ B) ++ l3 ∧
      (∀ v ∈ l1, v.1 < k) ∧ (∀ v ∈ A, v.1 = k ∧ v.2 ≤ f) ∧
      (∀ v ∈ B, v.1 = k ∧ f < v.2) ∧ (∀ v ∈ l3, k < v.1) ∧
      (A ++ B).Pairwise (fun a b => a.2 ≤ b.2) := by
  have hkey : t.Pairwise (fun a b => a.1 ≤ b.1) := by
    refine hs.imp ?_
    intro a b hab
    rcases hab with h | ⟨h, _⟩
    · exact Nat.le_of_lt h
    · exact Nat.le_of_eq h
  obtain ⟨l1, l2, heq, h1, h2⟩ := sorted_split Prod.fst k t hkey
  have hkey2 : l2.Pairwise (fun a b => a.1 ≤ b.1) := by
    rw [heq] at hkey
    exact (List.pairwise_append.mp hkey).2.1
  obtain ⟨r, l3, heq2, hr, h3⟩ := sorted_split Prod.fst (k + 1) l2 hkey2
  have hrk : ∀ v ∈ r, v.1 = k := by
    intro v hv
    have hlt : v.1 < k + 1 := hr v hv
    have hge : k ≤ v.1 := h2 v (by rw [heq2]; exact List.mem_append_left _ hv)
    omega
  have hrs : r.Pairwise (fun a b => a.2 ≤ b.2) := by
    have hsub : r.Sublist t := by
      rw [heq, heq2]
      exact (List.sublist_append_left r l3).trans (List.sublist_append_right l1 _)
    have hlex := hs.sublist hsub
    rw [List.pairwise_iff_forall_sublist] at hlex ⊢
    intro a b hab
    have hmem : a ∈ r ∧ b ∈ r := by
      constructor
      · exact hab.subset (List.mem_cons_self _ _)
      · exact hab.subset (List.mem_cons_of_mem _ (List.mem_cons_self _ _))
    have := hlex hab
    rcases this with h | ⟨_, h⟩
    · have ha := hrk a hmem.1
      have hb := hrk b hmem.2
      omega
    · exact h
  obtain ⟨A, B, heq3, hA, hB⟩ := sorted_split Prod.snd (f + 1) r hrs
  refine ⟨l1, A, B, l3, ?_, h1, ?_, ?_, ?_, by rw [← heq3]; exact hrs⟩
  · rw [heq, heq2, heq3]
    simp only [List.append_assoc]
  · intro v hv
    have hlt : v.2 < f + 1 := hA v hv
    exact ⟨hrk v (by rw [heq3]; exact List.mem_append_left _ hv), by omega⟩
  · intro v hv
    have hge : f + 1 ≤ v.2 := hB v hv
    exact ⟨hrk v (by rw [heq3]; exact List.mem_append_right _ hv), by omega⟩
  · intro v hv
    have hge : k + 1 ≤ v.1 := h3 v hv
    omega

/-- Link on a table split around the new entry: the entry goes between the entries
up to it and the entries beyond it; nothing else moves. -/
theorem emplace_association_split (self : associated_collection) (k f : Nat)
    (l1 A B l3 : List (Nat × Nat)) (heq : self.associations_ = l1 ++ (A ++ B) ++ l3)
    (h1 : ∀ v ∈ l1, v.1 < k) (hA : ∀ v ∈ A, v.1 = k ∧ v.2 ≤ f)
    (hB : ∀ v ∈ B, v.1 = k ∧ f < v.2) (h3 : ∀ v ∈ l3, k < v.1)
    (hsorted : (A ++ B).Pairwise (fun a b => a.2 ≤ b.2)) :
    (emplace_association self k f).associations_ = l1 ++ (A ++ (k, f) :: B) ++ l3 := by
  have hAB : ∀ v ∈ A ++ B, v.1 = k := by
    intro v hv
    rcases List.mem_append.mp hv with h | h
    · exact (hA v h).1
    · exact (hB v h).1
  have hR : ∀ v ∈ (A ++ B) ++ [(k, f)], v.1 = k := by
    intro v hv
    rcases List.mem_append.mp hv with h | h
    · exact hAB v h
    · rw [List.mem_singleton] at h
      rw [h]
  -- the entry is emplaced behind the run of `k`
  have hemp : flat_multimap.emplace self.associations_ (k, f)
      = l1 ++ (((A ++ B) ++ [(k, f)]) ++ l3) := by
    unfold flat_multimap.emplace
    rw [heq]
    have hup := upper_bound_partition Prod.fst (l1 ++ (A ++ B)) l3 k
      (by
        intro v hv
        rcases List.mem_append.mp hv with h | h
        · exact Nat.le_of_lt (h1 v h)
        · exact Nat.le_of_eq (hAB v h))
      h3
    simp only at hup ⊢
    rw [hup, List.take_left, List.drop_left]
    simp
  -- the bounds of the run of `k` afterwards
  have hlo : flat_tree.lower_bound Prod.fst (l1 ++ (((A ++ B) ++ [(k, f)]) ++ l3)) k
      = l1.length := by
    apply lower_bound_partition
    · exact h1
    · intro v hv
      rcases List.mem_append.mp hv with h | h
      · exact Nat.le_of_eq (hR v h).symm
      · exact Nat.le_of_lt (h3 v h)
  have hhi : flat_tree.upper_bound Prod.fst (l1 ++ (((A ++ B) ++ [(k, f)]) ++ l3)) k
      = l1.length + ((A ++ B) ++ [(k, f)]).length := by
    rw [← List.append_assoc, upper_bound_partition Prod.fst (l1 ++ ((A ++ B) ++ [(k, f)])) l3 k
      (by
        intro v hv
        rcases List.mem_append.mp hv with h | h
        · exact Nat.le_of_lt (h1 v h)
        · exact Nat.le_of_eq (hR v h))
      h3]
    simp
  -- the run sorted
  have hpw : ([] ++ (A ++ B)).Pairwise (fun a b => flat_set.pair_less b a = false) := by
    rw [List.nil_append]
    rw [List.pairwise_iff_forall_sublist] at hsorted ⊢
    intro a b hab
    have ha : a.1 = k := hAB a (hab.subset (List.mem_cons_self _ _))
    have hb : b.1 = k :=
      hAB b (hab.subset (List.mem_cons_of_mem _ (List.mem_cons_self _ _)))
    have hle : a.2 ≤ b.2 := hsorted hab
    simp only [flat_set.pair_less, ha, hb, Nat.lt_irrefl, decide_False, Bool.false_or,
      Bool.not_false, Bool.true_and, decide_eq_false_iff_not]
    omega
  have hsort : calgo.insertion_sort flat_set.pair_less [] ((A ++ B) ++ [(k, f)])
      = A ++ (k, f) :: B := by
    rw [insertion_sort_append_singleton, insertion_sort_of_sorted flat_set.pair_less _ _ hpw,
      List.nil_append]
    apply linear_insert_partition
    · intro a ha
      have h := hA a ha
      simp only [flat_set.pair_less, h.1, Nat.lt_irrefl, decide_False, Bool.false_or,
        Bool.not_false, Bool.true_and, decide_eq_false_iff_not]
      omega
    · intro b hb
      have h := hB b hb
      simp only [flat_set.pair_less, h.1, Nat.lt_irrefl, decide_False, Bool.false_or,
        Bool.not_false, Bool.true_and, decide_eq_true_eq]
      exact h.2
  unfold emplace_association
  simp only
  rw [hemp, hlo, hhi, List.take_left, List.drop_left, List.drop_append, List.drop_left,
    Nat.add_sub_cancel_left, List.take_left, hsort]

/-- Link on a sorted table, as an insertion: the table is cut in two, the entries up
to `(k, f)` and the entries beyond it, and the new entry is put between them. -/
theorem emplace_association_insert_form (self : associated_collection) (k f : Nat)
    (htable : table_sorted self) :
    ∃ p q, self.associations_ = p ++ q ∧
      (emplace_association self k f).associations_ = p ++ (k, f) :: q ∧
      (∀ v ∈ p, v.1 < k ∨ (v.1 = k ∧ v.2 ≤ f)) ∧
      (∀ v ∈ q, k < v.1 ∨ (v.1 = k ∧ f < v.2)) := by
  obtain ⟨l1, A, B, l3, heq, h1, hA, hB, h3, hsorted⟩ := table_split self.associations_ htable k f
  refine ⟨l1 ++ A, B ++ l3, ?_, ?_, ?_, ?_⟩
  · rw [heq]
    simp only [List.append_assoc]
  · rw [emplace_association_split self k f l1 A B l3 heq h1 hA hB h3 hsorted]
    simp only [List.append_assoc, List.cons_append]
  · intro v hv
    rcases List.mem_append.mp hv with h | h
    · exact Or.inl (h1 v h)
    · exact Or.inr (hA v h)
  · intro v hv
    rcases List.mem_append.mp hv with h | h
    · exact Or.inr (hB v h)
    · exact Or.inl (h3 v h)

/-- Link keeps the table sorted by (key, foreign key). -/
theorem emplace_association_table_sorted (self : associated_collection) (k f : Nat)
    (htable : table_sorted self) : table_sorted (emplace_association self k f) := by
  obtain ⟨p, q, heq, hnew, hp, hq⟩ := emplace_association_insert_form self k f htable
  have hpw : (p ++ q).Pairwise (fun a b => a.1 < b.1 ∨ (a.1 = b.1 ∧ a.2 ≤ b.2)) := by
    rw [← heq]
    exact htable
  obtain ⟨hpp, hqq, hcross⟩ := List.pairwise_append.mp hpw
  show (emplace_association self k f).associations_.Pairwise
    (fun a b => a.1 < b.1 ∨ (a.1 = b.1 ∧ a.2 ≤ b.2))
  rw [hnew, List.pairwise_append]
  refine ⟨hpp, ?_, ?_⟩
  · rw [List.pairwise_cons]
    refine ⟨?_, hqq⟩
    intro v hv
    rcases hq v hv with h | ⟨h1, h2⟩
    · exact Or.inl h
    · exact Or.inr ⟨h1.symm, Nat.le_of_lt h2⟩
  · intro a ha b hb
    rcases List.mem_cons.mp hb with hb | hb
    · rw [hb]
      exact hp a ha
    · exact hcross a ha b hb

/-- C17. Effect and frame of a single link: on a table sorted by (key, foreign
key), after `emplace_association(k, f)` the count of `k` is one more than before,
the range of `k` is the former range with `(k, f)` put at its sorted position
(behind the entries up to `f`, before the entries beyond `f`; the range is
ascending by foreign key), the range of every other key is unchanged, and the
store and `foreign_keys_` are unchanged. -/
theorem emplace_association_effect (self : associated_collection) (k f : Nat)
    (htable : table_sorted self) :
    flat_multimap.count (emplace_association self k f).associations_ k
      = flat_multimap.count self.associations_ k + 1 ∧
    flat_multimap.equal_range (emplace_association self k f).associations_ k
      = (flat_multimap.equal_range self.associations_ k).filter (fun v => decide (v.2 ≤ f)) ++
        (k, f) ::
          (flat_multimap.equal_range self.associations_ k).filter (fun v => decide (f < v.2)) ∧
    (flat_multimap.equal_range (emplace_association self k f).associations_ k).Pairwise
      (fun a b => a.2 ≤ b.2) ∧
    (∀ k' : Nat, k' ≠ k →
      flat_multimap.equal_range (emplace_association self k f).associations_ k'
        = flat_multimap.equal_range self.associations_ k') ∧
    (emplace_association self k f).collection_ = self.collection_ ∧
    (emplace_association self k f).foreign_keys_ = self.foreign_keys_ := by
  obtain ⟨p, q, heq, hnew, hp, hq⟩ := emplace_association_insert_form self k f htable
  have hrange : flat_multimap.equal_range (emplace_association self k f).associations_ k
      = p.filter (fun e => e.1 == k) ++ (k, f) :: q.filter (fun e => e.1 == k) := by
    unfold flat_multimap.equal_range
    rw [hnew, List.filter_append, List.filter_cons]
    simp
  have hold : flat_multimap.equal_range self.associations_ k
      = p.filter (fun e => e.1 == k) ++ q.filter (fun e => e.1 == k) := by
    unfold flat_multimap.equal_range
    rw [heq, List.filter_append]
  have hple : ∀ v ∈ p.filter (fun e => e.1 == k), v.2 ≤ f := by
    intro v hv
    rw [List.mem_filter] at hv
    have hk : v.1 = k := by simpa using hv.2
    rcases hp v hv.1 with h | ⟨_, h⟩
    · omega
    · exact h
  have hqgt : ∀ v ∈ q.filter (fun e => e.1 == k), f < v.2 := by
    intro v hv
    rw [List.mem_filter] at hv
    have hk : v.1 = k := by simpa using hv.2
    rcases hq v hv.1 with h | ⟨_, h⟩
    · omega
    · exact h
  refine ⟨?_, ?_, ?_, ?_, rfl, rfl⟩
  · unfold flat_multimap.count
    rw [hrange, hold]
    simp only [List.length_append, List.length_cons]
    omega
  · rw [hrange, hold, List.filter_append, List.filter_append]
    have e1 : (p.filter (fun e => e.1 == k)).filter (fun v => decide (v.2 ≤ f))
        = p.filter (fun e => e.1 == k) := by
      rw [List.filter_eq_self]
      intro v hv
      simpa using hple v hv
    have e2 : (q.filter (fun e => e.1 == k)).filter (fun v => decide (v.2 ≤ f)) = [] := by
      rw [List.filter_eq_nil_iff]
      intro v hv
      have := hqgt v hv
      simp only [decide_eq_true_eq]
      omega
    have e3 : (p.filter (fun e => e.1 == k)).filter (fun v => decide (f < v.2)) = [] := by
      rw [List.filter_eq_nil_iff]
      intro v hv
      have := hple v hv
      simp only [decide_eq_true_eq]
      omega
    have e4 : (q.filter (fun e => e.1 == k)).filter (fun v => decide (f < v.2))
        = q.filter (fun e => e.1 == k) := by
      rw [List.filter_eq_self]
      intro v hv
      simpa using hqgt v hv
    rw [e1, e2, e3, e4]
    simp
  · have hsorted := emplace_association_table_sorted self k f htable
    have hsub : (flat_multimap.equal_range (emplace_association self k f).associations_ k).Sublist
        (emplace_association self k f).associations_ := List.filter_sublist _
    have hlex := List.Pairwise.sublist hsub hsorted
    rw [List.pairwise_iff_forall_sublist] at hlex ⊢
    intro a b hab
    have ha : a.1 = k := by
      have := hab.subset (List.mem_cons_self _ _)
      unfold flat_multimap.equal_range at this
      rw [List.mem_filter] at this
      simpa using this.2
    have hb : b.1 = k := by
      have := hab.subset (List.mem_cons_of_mem _ (List.mem_cons_self _ _))
      unfold flat_multimap.equal_range at this
      rw [List.mem_filter] at this
      simpa using this.2
    rcases hlex hab with h | ⟨_, h⟩
    · omega
    · exact h
  · intro k' hk'
    unfold flat_multimap.equal_range
    rw [hnew, heq, List.filter_append, List.filter_append, List.filter_cons]
    have : ((k, f).1 == k') = false := by
      simp only [beq_eq_false_iff_ne, ne_eq]
      exact fun h => hk' h.symm
    rw [this]
    simp

/-- The scenario of the specification, linked once more: key 2 gains the foreign
key 9, before its entry (2, B). -/
theorem emplace_association_effect_witness :
    table_sorted scenario_aba ∧
    (emplace_association scenario_aba 2 9).associations_
      = [(1, 10), (2, 9), (2, 11), (3, 10)] ∧
    flat_multimap.count (emplace_association scenario_aba 2 9).associations_ 2
      = flat_multimap.count scenario_aba.associations_ 2 + 1 :=
  ⟨by decide, by decide, (emplace_association_effect scenario_aba 2 9 (by decide)).1⟩

/-- C18. The paired link is symmetric: for two indices with sorted tables,
`emplace_associations(A, B, keyA, keyB)` adds exactly one entry `(keyA, keyB)` to
the table of `A` and exactly one entry `(keyB, keyA)` to the table of `B` (each
table is cut in two and the entry put between the parts) and changes nothing
else; so when the table of `B` is the pairwise inverse of the table of `A`, as
multisets, before the call, it is so after the call. -/
theorem emplace_associations_symmetric (A B : associated_collection) (keyA keyB : Nat)
    (hA : table_sorted A) (hB : table_sorted B) :
    (∃ p q, A.associations_ = p ++ q ∧
      (emplace_associations A B keyA keyB).1.associations_ = p ++ (keyA, keyB) :: q) ∧
    (∃ p q, B.associations_ = p ++ q ∧
      (emplace_associations A B keyA keyB).2.associations_ = p ++ (keyB, keyA) :: q) ∧
    (emplace_associations A B keyA keyB).1.associations_.Perm
      ((keyA, keyB) :: A.associations_) ∧
    (emplace_associations A B keyA keyB).2.associations_.Perm
      ((keyB, keyA) :: B.associations_) ∧
    (emplace_associations A B keyA keyB).1.collection_ = A.collection_ ∧
    (emplace_associations A B keyA keyB).1.contributors_ = A.contributors_ ∧
    (emplace_associations A B keyA keyB).1.keys_ = A.keys_ ∧
    (emplace_associations A B keyA keyB).1.foreign_keys_ = A.foreign_keys_ ∧
    (emplace_associations A B keyA keyB).2.collection_ = B.collection_ ∧
    (emplace_associations A B keyA keyB).2.contributors_ = B.contributors_ ∧
    (emplace_associations A B keyA keyB).2.keys_ = B.keys_ ∧
    (emplace_associations A B keyA keyB).2.foreign_keys_ = B.foreign_keys_ ∧
    (B.associations_.Perm (A.associations_.map calgo.reverse) →
      (emplace_associations A B keyA keyB).2.associations_.Perm
        ((emplace_associations A B keyA keyB).1.associations_.map calgo.reverse)) := by
  obtain ⟨p, q, heq, hnew, _, _⟩ := emplace_association_insert_form A keyA keyB hA
  obtain ⟨p', q', heq', hnew', _, _⟩ := emplace_association_insert_form B keyB keyA hB
  have hpermA : (emplace_association A keyA keyB).associations_.Perm
      ((keyA, keyB) :: A.associations_) := by
    rw [hnew, heq]
    exact List.perm_middle
  have hpermB : (emplace_association B keyB keyA).associations_.Perm
      ((keyB, keyA) :: B.associations_) := by
    rw [hnew', heq']
    exact List.perm_middle
  refine ⟨⟨p, q, heq, hnew⟩, ⟨p', q', heq', hnew'⟩, hpermA, hpermB, rfl, rfl, rfl, rfl, rfl, rfl,
    rfl, rfl, ?_⟩
  intro hinv
  show (emplace_association B keyB keyA).associations_.Perm
    ((emplace_association A keyA keyB).associations_.map calgo.reverse)
  refine hpermB.trans ?_
  refine (List.Perm.cons (keyB, keyA) hinv).trans ?_
  exact (List.Perm.map calgo.reverse hpermA).symm

/-- The first link of `src/main.cpp` on two empty tables: each side gains its
entry, and the tables are inverse to each other afterwards. -/
theorem emplace_associations_symmetric_witness :
    table_sorted empty ∧
    (emplace_associations empty empty 1 10).1.associations_ = [(1, 10)] ∧
    (emplace_associations empty empty 1 10).2.associations_ = [(10, 1)] ∧
    (emplace_associations empty empty 1 10).2.associations_.Perm
      ((emplace_associations empty empty 1 10).1.associations_.map calgo.reverse) :=
  ⟨by decide, by decide, by decide,
    (emplace_associations_symmetric empty empty 1 10 (by decide) (by decide)).2.2.2.2.2.2.2.2.2.2.2.2
      (List.Perm.refl _)⟩

/-! ### The table in the states the calls reach -/

/-- `calgo::equal_values` holds exactly when the two ranges carry the same sequence
of mapped values. -/
theorem equal_values_iff {α β : Type} [DecidableEq β] :
    ∀ (l1 l2 : List (α × β)),
      calgo.equal_values l1 l2 = true ↔ l1.map Prod.snd = l2.map Prod.snd := by
  intro l1
  induction l1 with
  | nil =>
    intro l2
    cases l2 with
    | nil => simp [calgo.equal_values]
    | cons b rest => simp [calgo.equal_values]
  | cons a rest ih =>
    intro l2
    cases l2 with
    | nil => simp [calgo.equal_values]
    | cons b rest2 =>
      simp only [calgo.equal_values, calgo.value, Bool.and_eq_true, decide_eq_true_eq, ih,
        List.map_cons, List.cons.injEq]

/-- The foreign keys of the range of a key, in a table sorted by (key, foreign key),
are ascending. -/
theorem equal_range_values_sorted (t : List (Nat × Nat))
    (hs : t.Pairwise (fun a b => a.1 < b.1 ∨ (a.1 = b.1 ∧ a.2 ≤ b.2))) (k : Nat) :
    ((flat_multimap.equal_range t k).map Prod.snd).Pairwise (fun x y => x ≤ y) := by
  rw [List.pairwise_map]
  have hsub : (flat_multimap.equal_range t k).Sublist t := List.filter_sublist _
  have hlex := List.Pairwise.sublist hsub hs
  rw [List.pairwise_iff_forall_sublist] at hlex ⊢
  intro a b hab
  have ha : a.1 = k := by
    have := hab.subset (List.mem_cons_self _ _)
    unfold flat_multimap.equal_range at this
    rw [List.mem_filter] at this
    simpa using this.2
  have hb : b.1 = k := by
    have := hab.subset (List.mem_cons_of_mem _ (List.mem_cons_self _ _))
    unfold flat_multimap.equal_range at this
    rw [List.mem_filter] at this
    simpa using this.2
  rcases hlex hab with h | ⟨_, h⟩
  · omega
  · exact h

/-- The number of entries `(k, f)` of the table is the number of times `f` occurs
among the foreign keys of the range of `k`. -/
theorem count_entry_eq_count_value (t : List (Nat × Nat)) (k f : Nat) :
    t.count (k, f) = ((flat_multimap.equal_range t k).map Prod.snd).count f := by
  induction t with
  | nil => rfl
  | cons x rest ih =>
    unfold flat_multimap.equal_range at ih ⊢
    rw [List.count_cons, ih, List.filter_cons]
    by_cases hk : x.1 = k
    · have hk' : (x.1 == k) = true := by simpa using hk
      rw [hk', if_pos rfl, List.map_cons, List.count_cons]
      by_cases hf : x.2 = f
      · have hx : x = (k, f) := Prod.ext hk hf
        simp [hx]
      · have hx : ¬ x = (k, f) := by
          intro h
          exact hf (congrArg Prod.snd h)
        simp [hx, hf]
    · have hk' : (x.1 == k) = false := by simpa using hk
      have hx : ¬ x = (k, f) := by
        intro h
        exact hk (congrArg Prod.fst h)
      rw [hk']
      simp [hx]

/-- C21. `compare_associations` decides multiset equality: on a table sorted by
(key, foreign key), `compare_associations(a, b)` is true if and only if, for every
foreign key `f`, the table holds as many entries `(a, f)` as entries `(b, f)`; in
particular two keys with no associations compare equal. -/
theorem compare_associations_iff_same_multiset (self : associated_collection) (a b : Nat)
    (htable : table_sorted self) :
    (compare_associations self a b = true
      ↔ ∀ f : Nat, self.associations_.count (a, f) = self.associations_.count (b, f)) ∧
    (flat_multimap.equal_range self.associations_ a = [] →
      flat_multimap.equal_range self.associations_ b = [] →
      compare_associations self a b = true) := by
  refine ⟨?_, ?_⟩
  · unfold compare_associations
    rw [equal_values_iff]
    constructor
    · intro h f
      rw [count_entry_eq_count_value, count_entry_eq_count_value, h]
    · intro h
      have hperm : ((flat_multimap.equal_range self.associations_ a).map Prod.snd).Perm
          ((flat_multimap.equal_range self.associations_ b).map Prod.snd) := by
        rw [List.perm_iff_count]
        intro f
        rw [← count_entry_eq_count_value, ← count_entry_eq_count_value]
        exact h f
      exact List.eq_of_perm_of_sorted hperm
        (equal_range_values_sorted self.associations_ htable a)
        (equal_range_values_sorted self.associations_ htable b)
  · intro ha hb
    unfold compare_associations
    rw [ha, hb]
    rfl

/-- The scenario of the specification: the keys 1 and 3 are both linked to A only
and compare equal; the keys 1 and 2 do not. -/
theorem compare_associations_iff_same_multiset_witness :
    table_sorted scenario_aba ∧ compare_associations scenario_aba 1 3 = true ∧
    compare_associations scenario_aba 1 2 = false ∧
    (∀ f : Nat, scenario_aba.associations_.count (1, f)
      = scenario_aba.associations_.count (3, f)) :=
  ⟨by decide, by decide, by decide,
    (compare_associations_iff_same_multiset scenario_aba 1 3 (by decide)).1.mp (by decide)⟩

/-! ### The reported pairs under every call -/

/-- The `std::remove_if` loop with a predicate that only looks at the element keeps,
in order, the elements the predicate is false of. -/
theorem remove_if_loop_pure {σ α : Type} (put : List α → σ → σ) (p : α → Bool) :
    ∀ (rest : List α) (s : σ) (kept stale : List α),
      (calgo.remove_if_loop put (fun t x => (p x, t)) s kept stale rest).2
        = kept ++ rest.filter (fun x => !(p x)) := by
  intro rest
  induction rest with
  | nil =>
    intro s kept stale
    simp [calgo.remove_if_loop]
  | cons x rest ih =>
    intro s kept stale
    unfold calgo.remove_if_loop
    by_cases hx : p x = true
    · simp only [hx, if_true]
      rw [ih]
      simp [hx]
    · have hx' : p x = false := by simpa using hx
      simp only [hx', Bool.false_eq_true, if_false]
      rw [ih]
      simp [hx']

/-- C27. `calgo::erase_if` erases what the predicate selects: for every sequence
container and every pure unary predicate `p`, after `erase_if(container, p)` the
container is the sequence of the elements `p` is false of, in their original
order; so an element is in it exactly when it was in the container and `p` is
false of it, and every element `p` is true of is gone. -/
theorem erase_if_pure {α : Type} (p : α → Bool) (container : List α) :
    calgo.erase_if (fun buffer _ => buffer) (fun t x => (p x, t)) container container
      = container.filter (fun x => !(p x)) ∧
    (∀ x : α,
      x ∈ calgo.erase_if (fun buffer _ => buffer) (fun t x => (p x, t)) container container
        ↔ x ∈ container ∧ p x = false) ∧
    (∀ x : α, p x = true →
      x ∉ calgo.erase_if (fun buffer _ => buffer) (fun t x => (p x, t)) container
        container) := by
  have h : calgo.erase_if (fun buffer _ => buffer) (fun t x => (p x, t)) container container
      = container.filter (fun x => !(p x)) := by
    unfold calgo.erase_if
    rw [remove_if_loop_pure]
    simp
  rw [h]
  refine ⟨rfl, ?_, ?_⟩
  · intro x
    simp [List.mem_filter]
  · intro x hx hmem
    rw [List.mem_filter] at hmem
    simp [hx] at hmem

/-! ### The store under insert, link and delete-by-key -/

/-- Delete-by-key leaves a sublist of the store. -/
theorem erase_collection_sublist (self : associated_collection) (k : Nat) :
    (erase self k).collection_.Sublist self.collection_ := by
  rw [erase_eq]
  by_cases hany : self.collection_.any (fun e => e.key == k) = true
  · rw [if_pos hany]
    exact List.filter_sublist _
  · rw [if_neg hany]

/-- C28. The store stays sorted by key under insert, link and delete-by-key (I5,
store half): every sequence of insert, link and delete-by-key calls reaches a
state from the empty index, and in it the elements of the store are in ascending
key order (strictly: no key occurs twice). -/
theorem store_sorted_without_reorder (calls : List call)
    (hcalls : calls.all (fun c => !(call.reorders c)) = true) :
    ∃ t : associated_collection, run calls = some t ∧ store_sorted t := by
  obtain ⟨t, ht⟩ := run_from_without_reorder calls empty hcalls
  refine ⟨t, ht, ?_⟩
  apply run_invariant store_sorted calls t _ _ ht
  · exact List.Pairwise.nil
  · intro s c v hc hs hv
    rw [List.all_eq_true] at hcalls
    have hno := hcalls c hc
    cases c with
    | insert value =>
      rw [← Option.some.inj hv]
      exact emplace_store_sorted s value hs
    | link k f =>
      rw [← Option.some.inj hv]
      exact hs
    | delete_by_key k =>
      rw [← Option.some.inj hv]
      exact List.Pairwise.sublist (erase_collection_sublist s k) hs
    | delete_by_association_set S => simp [call.reorders] at hno

/-- Inserts out of order, a repeated key, links and a delete: the store is
ascending by key afterwards. -/
theorem store_sorted_without_reorder_witness :
    [call.insert ⟨2, 0⟩, call.insert ⟨1, 0⟩, call.insert ⟨3, 0⟩, call.insert ⟨2, 5⟩,
      call.link 2 11, call.link 1 10, call.delete_by_key 1].all
      (fun c => !(call.reorders c)) = true ∧
    (run [call.insert ⟨2, 0⟩, call.insert ⟨1, 0⟩, call.insert ⟨3, 0⟩, call.insert ⟨2, 5⟩,
      call.link 2 11, call.link 1 10, call.delete_by_key 1]).map collection_
      = some [⟨2, 0⟩, ⟨3, 0⟩] ∧
    (∃ t : associated_collection,
      run [call.insert ⟨2, 0⟩, call.insert ⟨1, 0⟩, call.insert ⟨3, 0⟩,
        call.insert ⟨2, 5⟩, call.link 2 11, call.link 1 10, call.delete_by_key 1] = some t ∧
      store_sorted t) :=
  ⟨by decide, by decide,
    store_sorted_without_reorder
      [call.insert ⟨2, 0⟩, call.insert ⟨1, 0⟩, call.insert ⟨3, 0⟩, call.insert ⟨2, 5⟩,
        call.link 2 11, call.link 1 10, call.delete_by_key 1] (by decide)⟩

/-! ### The comparison handed to the sort -/

theorem equal_values_refl {α β : Type} [DecidableEq β] :
    ∀ (l : List (α × β)), calgo.equal_values l l = true := by
  intro l
  rw [equal_values_iff]

/-- C29. The comparison handed to the sort by delete-by-association-set is not a
strict weak ordering. It holds of every element and itself, in every state (it
is not irreflexive). On the index `interleaved` it holds both ways between the
elements 2 and 4 (it is not asymmetric), and of 4 and 2 and of 2 and 3 but not of
4 and 3 (it is not transitive); and after the re-order the store is 1, 2, 3, 4:
the elements 2 and 4, whose association sets are equal, are not adjacent. -/
theorem sort_predicate_not_strict_weak :
    (∀ (self : associated_collection) (a : Element), erase_sort_predicate self a a = true) ∧
    erase_sort_predicate interleaved ⟨2, 0⟩ ⟨4, 0⟩ = true ∧
    erase_sort_predicate interleaved ⟨4, 0⟩ ⟨2, 0⟩ = true ∧
    erase_sort_predicate interleaved ⟨2, 0⟩ ⟨3, 0⟩ = true ∧
    erase_sort_predicate interleaved ⟨4, 0⟩ ⟨3, 0⟩ = false ∧
    compare_associations interleaved 2 4 = true ∧
    (erase_reorder (erase_scan interleaved [])).map collection_
      = some [⟨1, 0⟩, ⟨2, 0⟩, ⟨3, 0⟩, ⟨4, 0⟩] := by
  refine ⟨?_, by decide, by decide, by decide, by decide, by decide, by decide⟩
  intro self a
  unfold erase_sort_predicate compare_associations
  rw [equal_values_refl]
  rfl

/-! ### Delete-by-association-set with nothing to sever or collapse -/

/-- The collapse loop over elements no two of which compare equal keeps them all
and leaves the state alone. -/
theorem erase_collapse_loop_distinct :
    ∀ (rest : List Element) (s : associated_collection) (kept : List Element)
      (dest : Element),
      (dest :: rest).Nodup →
      (∀ a ∈ dest :: rest, ∀ b ∈ dest :: rest, a ≠ b →
        compare_associations s a.key b.key = false) →
      calgo.unique_loop erase_collapse_predicate s kept dest rest = (s, kept ++ rest) := by
  intro rest
  induction rest with
  | nil =>
    intro s kept dest _ _
    simp [calgo.unique_loop]
  | cons x rest ih =>
    intro s kept dest hnodup hdistinct
    have hne : dest ≠ x := by
      intro h
      rw [List.nodup_cons] at hnodup
      exact hnodup.1 (by rw [h]; exact List.mem_cons_self _ _)
    have hcmp : compare_associations s dest.key x.key = false :=
      hdistinct dest (List.mem_cons_self _ _) x
        (List.mem_cons_of_mem _ (List.mem_cons_self _ _)) hne
    have hstep : erase_collapse_predicate s dest x = (false, s) := by
      rw [erase_collapse_predicate_eq, hcmp]
      rfl
    unfold calgo.unique_loop
    simp only [hstep, Bool.false_eq_true, if_false]
    rw [ih s (kept ++ [x]) x (List.nodup_cons.mp hnodup).2
      (fun a ha b hb => hdistinct a (List.mem_cons_of_mem _ ha) b (List.mem_cons_of_mem _ hb))]
    simp

/-- The collapse changes nothing in a state whose store has no element twice and no
two elements with equal association ranges. -/
theorem erase_collapse_distinct (s : associated_collection) (hnodup : s.collection_.Nodup)
    (hdistinct : no_structural_duplicates s) : erase_collapse s = s := by
  unfold erase_collapse calgo.erase_duplicates_if
  cases hstore : s.collection_ with
  | nil =>
    simp only
    unfold put_collection
    rw [← hstore]
  | cons first rest =>
    simp only
    have h := erase_collapse_loop_distinct rest s [first] first (by rw [← hstore]; exact hnodup)
      (by
        intro a ha b hb hab
        apply hdistinct a (by rw [hstore]; exact ha) b (by rw [hstore]; exact hb) hab)
    rw [h]
    simp only [List.singleton_append]
    unfold put_collection
    rw [← hstore]

/-- The scan changes nothing when no pair of the set is in the table. -/
theorem erase_scan_disjoint (self : associated_collection) (S : List (Nat × Nat))
    (htable : table_sorted_by_key self) (hnone : ∀ v ∈ S, v ∉ self.associations_) :
    erase_scan self S = self := by
  rw [erase_scan_eq self S htable]
  have hfalse : ∀ v ∈ self.associations_, calgo.contains S v = false := by
    intro v hv
    rw [Bool.eq_false_iff]
    intro hc
    rw [calgo_contains_iff] at hc
    exact hnone v hc hv
  have h1 : self.associations_.filter (fun v => !(calgo.contains S v)) = self.associations_ := by
    rw [List.filter_eq_self]
    intro v hv
    simp [hfalse v hv]
  have h2 : cascaded S self.associations_ self.associations_ = [] := by
    unfold cascaded
    rw [List.map_eq_nil_iff, List.filter_eq_nil_iff]
    intro v hv
    simp [hfalse v hv]
  rw [h1, h2]
  simp [without_keys, put_associations]

/-- The comparison handed to the sort never ties: of two elements it holds one way
or the other. -/
theorem erase_sort_predicate_total (self : associated_collection) (a b : Element) :
    erase_sort_predicate self a b = true ∨ erase_sort_predicate self b a = true := by
  unfold erase_sort_predicate
  by_cases hab : compare_associations self a.key b.key = true
  · left
    rw [if_pos hab]
  · by_cases hlt : a.key < b.key
    · left
      rw [if_neg hab]
      simpa [calgo.value, key_tuple] using hlt
    · by_cases hgt : b.key < a.key
      · right
        split
        · rfl
        · simpa [calgo.value, key_tuple] using hgt
      · exfalso
        apply hab
        have heq : a.key = b.key := by omega
        rw [heq]
        unfold compare_associations
        exact equal_values_refl _

theorem ranks_apart_iff {α : Type} (comp : α → α → Bool) :
    ∀ (range : List α), calgo.ranks_apart comp range = true
      ↔ range.Pairwise (fun a b => comp a b ≠ comp b a) := by
  intro range
  induction range with
  | nil => simp [calgo.ranks_apart]
  | cons a rest ih =>
    unfold calgo.ranks_apart
    rw [Bool.and_eq_true, ih, List.pairwise_cons, List.all_eq_true]
    simp

/-- The insertion step keeps a range ascending, when the comparison ranks the value
apart from every element of the range and is transitive on them. -/
theorem linear_insert_sorted {α : Type} (comp : α → α → Bool) (val : α) (sorted : List α)
    (hapart : ∀ x ∈ sorted, comp val x ≠ comp x val)
    (htrans : ∀ a ∈ val :: sorted, ∀ b ∈ val :: sorted, ∀ c ∈ val :: sorted,
      comp a b = true → comp b c = true → comp a c = true)
    (hs : sorted.Pairwise (fun a b => comp a b = true)) :
    (calgo.linear_insert comp val sorted).Pairwise (fun a b => comp a b = true) := by
  have hsplit : sorted.takeWhile (fun x => !(comp val x))
      ++ sorted.dropWhile (fun x => !(comp val x)) = sorted :=
    List.takeWhile_append_dropWhile _ _
  have hA : ∀ a ∈ sorted.takeWhile (fun x => !(comp val x)), comp val a = false := by
    intro a ha
    have h := List.mem_takeWhile_imp ha
    simpa using h
  have hsub : (sorted.dropWhile (fun x => !(comp val x))).Sublist sorted :=
    List.dropWhile_sublist _
  have hB : ∀ b ∈ sorted.dropWhile (fun x => !(comp val x)), comp val b = true := by
    cases hdrop : sorted.dropWhile (fun x => !(comp val x)) with
    | nil =>
      intro b hb
      exact absurd hb (List.not_mem_nil b)
    | cons y rest =>
      have hy : comp val y = true := by
        have h := List.head_dropWhile_not (fun x => !(comp val x)) sorted (by
          rw [hdrop]
          exact List.cons_ne_nil _ _)
        simp only [hdrop, List.head_cons] at h
        simpa using h
      have hymem : y ∈ sorted := hsub.subset (by rw [hdrop]; exact List.mem_cons_self _ _)
      have hpair : (y :: rest).Pairwise (fun a b => comp a b = true) := by
        rw [← hdrop]
        exact List.Pairwise.sublist hsub hs
      intro b hb
      rcases List.mem_cons.mp hb with h | h
      · rw [h]
        exact hy
      · have hbmem : b ∈ sorted :=
          hsub.subset (by rw [hdrop]; exact List.mem_cons_of_mem _ h)
        exact htrans val (List.mem_cons_self _ _) y (List.mem_cons_of_mem _ hymem) b
          (List.mem_cons_of_mem _ hbmem) hy ((List.pairwise_cons.mp hpair).1 b h)
  have hform := linear_insert_partition comp val _ _ hA hB
  rw [hsplit] at hform
  rw [hform]
  have hs' := hs
  rw [← hsplit, List.pairwise_append] at hs'
  obtain ⟨hpA, hpB, hAB⟩ := hs'
  rw [List.pairwise_append]
  refine ⟨hpA, ?_, ?_⟩
  · rw [List.pairwise_cons]
    exact ⟨hB, hpB⟩
  · intro a ha b hb
    rcases List.mem_cons.mp hb with h | h
    · rw [h]
      have hne := hapart a ((List.takeWhile_sublist _).subset ha)
      rw [hA a ha] at hne
      cases hc : comp a val with
      | true => rfl
      | false => exact absurd hc.symm hne
    · exact hAB a ha b h

/-- The insertion sort yields an ascending range, when the comparison ranks the
elements of the range apart and is transitive on them. -/
theorem insertion_sort_sorted {α : Type} (comp : α → α → Bool) :
    ∀ (rest sorted : List α),
      (sorted ++ rest).Pairwise (fun a b => comp a b ≠ comp b a) →
      (∀ a ∈ sorted ++ rest, ∀ b ∈ sorted ++ rest, ∀ c ∈ sorted ++ rest,
        comp a b = true → comp b c = true → comp a c = true) →
      sorted.Pairwise (fun a b => comp a b = true) →
      (calgo.insertion_sort comp sorted rest).Pairwise (fun a b => comp a b = true) := by
  intro rest
  induction rest with
  | nil =>
    intro sorted _ _ hs
    exact hs
  | cons val rest ih =>
    intro sorted hapart htrans hs
    unfold calgo.insertion_sort
    have hperm : (calgo.linear_insert comp val sorted ++ rest).Perm (sorted ++ val :: rest) :=
      (List.Perm.append_right rest (linear_insert_perm comp val sorted)).trans
        List.perm_middle.symm
    apply ih
    · exact (hperm.pairwise_iff (fun h => Ne.symm h)).mpr hapart
    · intro a ha b hb c hc
      exact htrans a (hperm.mem_iff.mp ha) b (hperm.mem_iff.mp hb) c (hperm.mem_iff.mp hc)
    · apply linear_insert_sorted comp val sorted
      · intro x hx
        have h := (List.pairwise_append.mp hapart).2.2 x hx val (List.mem_cons_self _ _)
        exact Ne.symm h
      · intro a ha b hb c hc
        have hmem : ∀ x ∈ val :: sorted, x ∈ sorted ++ val :: rest := by
          intro x hx
          rcases List.mem_cons.mp hx with h | h
          · rw [h]
            exact List.mem_append_right _ (List.mem_cons_self _ _)
          · exact List.mem_append_left _ h
        exact htrans a (hmem a ha) b (hmem b hb) c (hmem c hc)
      · exact hs

theorem orders_strictly_iff {α : Type} (comp : α → α → Bool) (range : List α) :
    calgo.orders_strictly comp range = true
      ↔ range.Pairwise (fun a b => comp a b ≠ comp b a) ∧
        ∀ a ∈ range, ∀ b ∈ range, ∀ c ∈ range,
          comp a b = true → comp b c = true → comp a c = true := by
  unfold calgo.orders_strictly
  rw [Bool.and_eq_true, ranks_apart_iff]
  apply and_congr_right
  intro _
  simp only [List.all_eq_true]
  constructor
  · intro h a ha b hb c hc hab hbc
    have := h a ha b hb c hc
    simpa [hab, hbc] using this
  · intro h a ha b hb c hc
    cases hab : comp a b with
    | false => simp
    | true =>
      cases hbc : comp b c with
      | false => simp
      | true => simp [h a ha b hb c hc hab hbc]

/-- With a comparison that orders the range strictly, the result of `calgo::sort` is
ascending. -/
theorem sort_sorted {α : Type} (container : List α) (binary_predicate : α → α → Bool)
    (sorted : List α) (hvalid : calgo.orders_strictly binary_predicate container = true)
    (h : calgo.sort container binary_predicate = some sorted) :
    sorted.Pairwise (fun a b => binary_predicate a b = true) := by
  rw [sort_eq_some container binary_predicate sorted h]
  rw [orders_strictly_iff] at hvalid
  apply insertion_sort_sorted binary_predicate container []
  · simpa using hvalid.1
  · simpa using hvalid.2
  · exact List.Pairwise.nil

/-- With a comparison that orders the range strictly, the range has one ascending
arrangement only: every ascending permutation of the range is the result of
`calgo::sort`, whatever algorithm has produced it. -/
theorem sort_unique {α : Type} (container : List α) (binary_predicate : α → α → Bool)
    (arranged : List α) (hvalid : calgo.orders_strictly binary_predicate container = true)
    (hperm : arranged.Perm container)
    (hasc : arranged.Pairwise (fun a b => binary_predicate a b = true)) :
    calgo.sort container binary_predicate = some arranged := by
  have hsort := sort_of_orders_strictly container binary_predicate hvalid
  have hs := sort_sorted container binary_predicate _ hvalid hsort
  have hp := sort_perm container binary_predicate _ hsort
  rw [hsort]
  apply congrArg some
  have hv := (orders_strictly_iff binary_predicate container).mp hvalid
  have hne : ∀ a ∈ container, ∀ b ∈ container, a ≠ b →
      binary_predicate a b ≠ binary_predicate b a := by
    intro a ha b hb hab
    exact List.Pairwise.forall (fun _ _ h => Ne.symm h) hv.1 ha hb hab
  have hanti : ∀ a ∈ container, ∀ b ∈ container,
      binary_predicate a b = true → binary_predicate b a = true → a = b := by
    intro a ha b hb hab hba
    by_contra hneq
    exact hne a ha b hb hneq (by rw [hab, hba])
  exact List.Perm.eq_of_sorted (fun a b ha hb hab hba =>
    hanti a (hp.mem_iff.mp ha) b (hperm.mem_iff.mp hb) hab hba) hs hasc
    (hp.trans hperm.symm)

/-- The first inner loop of the partition reads `*end()` when the comparison holds of
every element it passes. -/
theorem unguarded_partition_up_runs_off {α : Type} (comp : α → α → Bool) (pivot : α) :
    ∀ (rest : List α) (first : Nat), (∀ x ∈ rest, comp x pivot = true) →
      calgo.unguarded_partition_up comp pivot rest first = none := by
  intro rest
  induction rest with
  | nil =>
    intro first _
    rfl
  | cons x rest ih =>
    intro first hall
    unfold calgo.unguarded_partition_up
    rw [if_pos (hall x (List.mem_cons_self _ _))]
    exact ih (first + 1) (fun y hy => hall y (List.mem_cons_of_mem _ hy))

theorem mem_of_mem_iter_swap {α : Type} (range swapped : List α) (a b : Nat)
    (h : calgo.iter_swap range a b = some swapped) : ∀ x ∈ swapped, x ∈ range := by
  unfold calgo.iter_swap at h
  cases ha : range[a]? with
  | none => simp [ha] at h
  | some u =>
    cases hb : range[b]? with
    | none => simp [ha, hb] at h
    | some v =>
      simp only [ha, hb, Option.some.injEq] at h
      intro x hx
      rw [← h] at hx
      rcases List.mem_or_eq_of_mem_set hx with h1 | h1
      · rcases List.mem_or_eq_of_mem_set h1 with h2 | h2
        · exact h2
        · rw [h2]
          exact List.getElem?_mem hb
      · rw [h1]
        exact List.getElem?_mem ha

theorem length_iter_swap {α : Type} (range swapped : List α) (a b : Nat)
    (h : calgo.iter_swap range a b = some swapped) : swapped.length = range.length := by
  unfold calgo.iter_swap at h
  cases ha : range[a]? with
  | none => simp [ha] at h
  | some u =>
    cases hb : range[b]? with
    | none => simp [ha, hb] at h
    | some v =>
      simp only [ha, hb, Option.some.injEq] at h
      rw [← h]
      simp

/-- The step `std::sort` starts with on more than sixteen elements leaves the range
when the comparison holds between every two elements of the range: whichever
element becomes the pivot, the loop `while (comp(first, pivot)) ++first;` passes
every element and reads `*end()`; and `calgo.sort` has no result. -/
theorem sort_runs_off {α : Type} (container : List α) (binary_predicate : α → α → Bool)
    (hlong : 16 < container.length)
    (hall : ∀ a ∈ container, ∀ b ∈ container, binary_predicate a b = true) :
    calgo.unguarded_partition_pivot binary_predicate container = none ∧
    calgo.sort container binary_predicate = none := by
  refine ⟨?_, ?_⟩
  · unfold calgo.unguarded_partition_pivot
    cases hmedian : calgo.move_median_to_first binary_predicate container 0 1
        (container.length / 2) (container.length - 1) with
    | none => rfl
    | some swapped =>
      simp only
      have hswap : ∃ i j : Nat, calgo.iter_swap container i j = some swapped := by
        unfold calgo.move_median_to_first at hmedian
        split at hmedian
        · split at hmedian
          · split at hmedian
            · exact ⟨_, _, hmedian⟩
            · split at hmedian
              · exact ⟨_, _, hmedian⟩
              · exact ⟨_, _, hmedian⟩
          · split at hmedian
            · exact ⟨_, _, hmedian⟩
            · split at hmedian
              · exact ⟨_, _, hmedian⟩
              · exact ⟨_, _, hmedian⟩
        · exact absurd hmedian (by simp)
      obtain ⟨i, j, hij⟩ := hswap
      have hmem := mem_of_mem_iter_swap container swapped i j hij
      have hlen := length_iter_swap container swapped i j hij
      obtain ⟨n, hn⟩ : ∃ n, container.length = n + 1 := ⟨container.length - 1, by omega⟩
      rw [hn]
      unfold calgo.unguarded_partition
      cases hp : swapped[0]? with
      | none => rfl
      | some p =>
        simp only
        rw [unguarded_partition_up_runs_off binary_predicate p (swapped.drop 1) 1 (by
          intro x hx
          exact hall x (hmem x (List.mem_of_mem_drop hx)) p
            (hmem p (List.getElem?_mem hp)))]
  · apply sort_eq_none container binary_predicate hlong
    rw [Bool.eq_false_iff]
    intro hvalid
    rw [orders_strictly_iff] at hvalid
    match container, hlong, hall, hvalid with
    | [], hl, _, _ => simp at hl
    | [_], hl, _, _ => simp at hl
    | a :: b :: _, _, ha, hv =>
      have h1 := ha a (List.mem_cons_self _ _) b
        (List.mem_cons_of_mem _ (List.mem_cons_self _ _))
      have h2 := ha b (List.mem_cons_of_mem _ (List.mem_cons_self _ _)) a
        (List.mem_cons_self _ _)
      have h3 := (List.pairwise_cons.mp hv.1).1 b (List.mem_cons_self _ _)
      exact h3 (by rw [h1, h2])

/-- On a store with unique keys and no two elements with equal association sets the
comparison handed to the sort is the order of the keys, and orders the store
strictly. -/
theorem erase_sort_predicate_orders_strictly (self : associated_collection)
    (hkeys : unique_keys self) (hdistinct : no_structural_duplicates self) :
    calgo.orders_strictly (erase_sort_predicate self) self.collection_ = true := by
  have hcomp : ∀ x ∈ self.collection_, ∀ y ∈ self.collection_, x ≠ y →
      erase_sort_predicate self x y = decide (x.key < y.key) := by
    intro x hx y hy hne
    unfold erase_sort_predicate
    rw [hdistinct x hx y hy hne]
    rfl
  have hrefl : ∀ x : Element, erase_sort_predicate self x x = true := by
    intro x
    unfold erase_sort_predicate compare_associations
    rw [equal_values_refl]
    rfl
  unfold calgo.orders_strictly
  rw [Bool.and_eq_true]
  refine ⟨?_, ?_⟩
  · rw [ranks_apart_iff]
    refine List.Pairwise.imp_of_mem ?_ hkeys
    intro a b ha hb hab
    have hne : a ≠ b := fun h => hab (by rw [h])
    rw [hcomp a ha b hb hne, hcomp b hb a ha (Ne.symm hne)]
    by_cases hlt : a.key < b.key
    · have hgt : ¬ b.key < a.key := by omega
      simp [hlt, hgt]
    · have hgt : b.key < a.key := by omega
      simp [hlt, hgt]
  · rw [List.all_eq_true]
    intro a ha
    rw [List.all_eq_true]
    intro b hb
    rw [List.all_eq_true]
    intro c hc
    by_cases hab : a = b
    · rw [hab]
      cases erase_sort_predicate self b c <;> simp
    · by_cases hbc : b = c
      · rw [hbc]
        cases erase_sort_predicate self a c <;> simp
      · rw [hcomp a ha b hb hab, hcomp b hb c hc hbc]
        by_cases hac : a = c
        · rw [hac]
          by_cases h1 : c.key < b.key
          · have h2 : ¬ b.key < c.key := by omega
            simp [h1, h2]
          · simp [h1]
        · rw [hcomp a ha c hc hac]
          by_cases h1 : a.key < b.key
          · by_cases h2 : b.key < c.key
            · have h3 : a.key < c.key := by omega
              simp [h1, h2, h3]
            · simp [h2]
          · simp [h1]

/-- Delete-by-association-set has a resulting state when the store after its scan
has unique keys and no two elements with equal association sets, whatever its
size. -/
theorem erase_inverse_foreign_returns_of_distinct (self : associated_collection)
    (S : List (Nat × Nat)) (hkeys : unique_keys (erase_scan self S))
    (hdistinct : no_structural_duplicates (erase_scan self S)) :
    ∃ r : associated_collection, erase_inverse_foreign self S = some r :=
  ⟨_, erase_inverse_foreign_of_sort self S _
    (sort_of_orders_strictly _ _
      (erase_sort_predicate_orders_strictly (erase_scan self S) hkeys hdistinct))⟩

/-- C30. Delete-by-association-set changes nothing when there is nothing to sever
or collapse: with unique keys, a sorted table, no two distinct elements with
equal association sets, and a set `S` none of whose pairs is in the table,
`erase(S)` leaves a state with the table and `foreign_keys_` exactly as they were
(and the contributors), and with the store holding the same elements, possibly in
another order. -/
theorem erase_set_nothing_to_do (self : associated_collection) (S : List (Nat × Nat))
    (hkeys : unique_keys self) (htable : table_sorted self)
    (hdistinct : no_structural_duplicates self)
    (hnone : ∀ v ∈ S, v ∉ self.associations_) :
    ∃ r : associated_collection, erase_inverse_foreign self S = some r ∧
      r.associations_ = self.associations_ ∧
      r.foreign_keys_ = self.foreign_keys_ ∧
      r.contributors_ = self.contributors_ ∧
      r.collection_.Perm self.collection_ := by
  have hscan := erase_scan_disjoint self S (table_sorted_by_key_of_table_sorted htable) hnone
  have hsort : calgo.sort (erase_scan self S).collection_
      (erase_sort_predicate (erase_scan self S))
      = some (calgo.insertion_sort (erase_sort_predicate self) [] self.collection_) := by
    rw [hscan]
    exact sort_of_orders_strictly _ _
      (erase_sort_predicate_orders_strictly self hkeys hdistinct)
  have hperm : (calgo.insertion_sort (erase_sort_predicate self) [] self.collection_).Perm
      self.collection_ := by
    simpa using insertion_sort_perm (erase_sort_predicate self) self.collection_ []
  have hnodup : self.collection_.Nodup := by
    refine List.Pairwise.imp ?_ hkeys
    intro a b hab h
    exact hab (by rw [h])
  have hcollapse : erase_collapse (put_collection
      (calgo.insertion_sort (erase_sort_predicate self) [] self.collection_) self)
      = put_collection
        (calgo.insertion_sort (erase_sort_predicate self) [] self.collection_) self := by
    apply erase_collapse_distinct
    · exact hperm.nodup_iff.mpr hnodup
    · intro a ha b hb hab
      exact hdistinct a (hperm.mem_iff.mp ha) b (hperm.mem_iff.mp hb) hab
  refine ⟨_, erase_inverse_foreign_of_sort self S _ hsort, ?_⟩
  rw [hscan, hcollapse]
  exact ⟨rfl, rfl, rfl, hperm⟩

/-- The scenario of the specification without the element 3 (no two elements with
equal association sets) and a set of pairs that are not in the table: nothing
changes. -/
theorem erase_set_nothing_to_do_witness :
    unique_keys (erase scenario_aba 3) ∧ table_sorted (erase scenario_aba 3) ∧
    no_structural_duplicates (erase scenario_aba 3) ∧
    erase_inverse_foreign (erase scenario_aba 3) [(1, 11), (5, 10)]
      = some (erase scenario_aba 3) ∧
    (∃ r : associated_collection,
      erase_inverse_foreign (erase scenario_aba 3) [(1, 11), (5, 10)] = some r ∧
      r.associations_ = (erase scenario_aba 3).associations_ ∧
      r.foreign_keys_ = (erase scenario_aba 3).foreign_keys_ ∧
      r.contributors_ = (erase scenario_aba 3).contributors_ ∧
      r.collection_.Perm (erase scenario_aba 3).collection_) :=
  ⟨by decide, by decide, by decide, by decide,
    erase_set_nothing_to_do (erase scenario_aba 3) [(1, 11), (5, 10)] (by decide) (by decide)
      (by decide) (by decide)⟩

/-! ### The invariants in the states the calls reach -/

/-- C23. An insert after a delete-by-association-set can store a key twice: the
calls of the first scenario followed by `erase` with the empty set leave the
store in the order 3, 2 (the sort moves the element 3 to the front, the collapse
drops the element 1); on that store the binary search of the insert of a new
element of key 2 ends at the front, before the element 3, and the element is
inserted: the store then holds two elements of key 2. -/
theorem insert_after_reorder_duplicates_key :
    (∃ s : associated_collection, run scenario_aba_collapsed = some s ∧
      s.collection_ = [⟨3, 0⟩, ⟨2, 0⟩] ∧
      flat_tree.lower_bound Element.key s.collection_ 2 = 0) ∧
    (∃ t : associated_collection,
      run (scenario_aba_collapsed ++ [call.insert ⟨2, 7⟩]) = some t ∧
      t.collection_ = [⟨2, 7⟩, ⟨3, 0⟩, ⟨2, 0⟩] ∧ ¬ unique_keys t) :=
  ⟨⟨_, rfl, by decide, by decide⟩, ⟨_, rfl, by decide, by decide⟩⟩

/-- C24. `visit` can miss a matching element in a reachable state: after the calls
of the first scenario followed by `erase` with the empty set the store is in the
order 3, 2 and the table is (2, B), (3, A); `visit(B, op)` compares the entry
(2, B) with the element 3, moves on in the table, and ends without invoking `op`,
though the element 2 is stored and holds the entry (2, B). -/
theorem visit_misses_after_reorder :
    ∃ s : associated_collection, run scenario_aba_collapsed = some s ∧
      s.collection_ = [⟨3, 0⟩, ⟨2, 0⟩] ∧
      s.associations_ = [(2, 11), (3, 10)] ∧
      (⟨2, 0⟩ : Element) ∈ s.collection_ ∧
      (2, 11) ∈ flat_multimap.equal_range s.associations_ 2 ∧
      visit s 11 = [] :=
  ⟨_, rfl, by decide, by decide, by decide, by decide, by decide⟩

theorem triangle_product_inner_eq_map {α : Type} (x : α) :
    ∀ (l : List α), calgo.triangle_product_inner x l = l.map (fun y => (x, y)) := by
  intro l
  induction l with
  | nil => rfl
  | cons y rest ih =>
    unfold calgo.triangle_product_inner
    rw [ih]
    rfl

theorem flatMap_congr_mem {α β : Type} (f g : α → List β) :
    ∀ (l : List α), (∀ a ∈ l, f a = g a) → l.flatMap f = l.flatMap g := by
  intro l
  induction l with
  | nil =>
    intro _
    rfl
  | cons a rest ih =>
    intro h
    rw [List.flatMap_cons, List.flatMap_cons, h a (List.mem_cons_self _ _),
      ih (fun b hb => h b (List.mem_cons_of_mem _ hb))]

/-- The loop visits the strict upper triangle, whatever the number of the first
element. -/
theorem triangle_product_eq_strict_upper_triangle {α : Type} :
    ∀ (l : List α) (start : Nat),
      calgo.triangle_product l = calgo.strict_upper_triangle start l := by
  intro l
  induction l with
  | nil =>
    intro start
    rfl
  | cons x rest ih =>
    intro start
    unfold calgo.triangle_product calgo.strict_upper_triangle
    rw [List.enumFrom_cons, List.flatMap_cons]
    have hlater : ∀ b ∈ rest.enumFrom (start + 1), start < b.1 := by
      intro b hb
      have := List.le_fst_of_mem_enumFrom hb
      omega
    -- the pairs of the first element
    have hfirst : (((start, x) :: rest.enumFrom (start + 1)).filter
        (fun b => decide ((start, x).1 < b.1))).map (fun b => ((start, x).2, b.2))
        = calgo.triangle_product_inner x rest := by
      rw [List.filter_cons]
      simp only [Nat.lt_irrefl, decide_False, Bool.false_eq_true, if_false]
      have hall : (rest.enumFrom (start + 1)).filter (fun b => decide (start < b.1))
          = rest.enumFrom (start + 1) := by
        rw [List.filter_eq_self]
        intro b hb
        simpa using hlater b hb
      rw [hall, triangle_product_inner_eq_map]
      have hsnd := List.enumFrom_map_snd (start + 1) rest
      calc (rest.enumFrom (start + 1)).map (fun b => (x, b.2))
          = ((rest.enumFrom (start + 1)).map Prod.snd).map (fun y => (x, y)) := by
            rw [List.map_map]
            rfl
        _ = rest.map (fun y => (x, y)) := by rw [hsnd]
    -- the pairs of the later elements
    have hrest : (rest.enumFrom (start + 1)).flatMap (fun a =>
        (((start, x) :: rest.enumFrom (start + 1)).filter
          (fun b => decide (a.1 < b.1))).map (fun b => (a.2, b.2)))
        = calgo.strict_upper_triangle (start + 1) rest := by
      unfold calgo.strict_upper_triangle
      apply flatMap_congr_mem
      intro a ha
      have hlt : start < a.1 := hlater a ha
      rw [List.filter_cons]
      have hnot : ¬ a.1 < start := by omega
      simp [hnot]
    rw [hfirst, hrest, ← ih (start + 1)]

theorem triangle_product_length {α : Type} :
    ∀ (l : List α), (calgo.triangle_product l).length * 2 = l.length * (l.length - 1) := by
  intro l
  induction l with
  | nil => rfl
  | cons x rest ih =>
    unfold calgo.triangle_product
    rw [List.length_append, triangle_product_inner_eq_map, List.length_map, List.length_cons,
      Nat.add_mul, ih, Nat.add_sub_cancel]
    cases hn : rest.length with
    | zero => rfl
    | succ m =>
      simp only [Nat.add_sub_cancel]
      ring

/-- C26. `triangle_product` visits the strict upper triangle: for every sequence
`x_0 .. x_(n-1)` the pairs `op` is invoked on, in order, are the pairs
`(x_i, x_j)` with `i < j` in lexicographic order of `(i, j)`, each once and no
pair with `i >= j`; there are `n(n-1)/2` of them, and for the 4-element example of
the documentation they are the 6 pairs listed there. -/
theorem triangle_product_strict_upper_triangle {α : Type} (l : List α) :
    calgo.triangle_product l = calgo.strict_upper_triangle 0 l ∧
    (calgo.triangle_product l).length = l.length * (l.length - 1) / 2 ∧
    calgo.triangle_product [((1 : Nat), (0 : Nat)), (2, 0), (3, 0), (4, 0)]
      = [((1, 0), (2, 0)), ((1, 0), (3, 0)), ((1, 0), (4, 0)),
         ((2, 0), (3, 0)), ((2, 0), (4, 0)), ((3, 0), (4, 0))] := by
  refine ⟨triangle_product_eq_strict_upper_triangle l 0, ?_, by decide⟩
  have h := triangle_product_length l
  omega

/-! ### Unlinked elements under the empty set -/

/-- The scan loop with nothing to sever keeps every entry and leaves the rest of the
state alone, whatever the order of the table. -/
theorem erase_scan_loop_nil :
    ∀ (rest : List (Nat × Nat)) (s : associated_collection)
      (kept stale a : List (Nat × Nat)),
      (calgo.remove_if_loop put_associations (erase_scan_predicate []) s kept stale rest).2
        = kept ++ rest ∧
      put_associations a
          (calgo.remove_if_loop put_associations (erase_scan_predicate []) s kept stale rest).1
        = put_associations a s := by
  intro rest
  induction rest with
  | nil =>
    intro s kept stale a
    simp [calgo.remove_if_loop]
  | cons x rest ih =>
    intro s kept stale a
    have hstep : erase_scan_predicate []
        (put_associations (kept ++ stale ++ x :: rest) s) x
        = (false, put_associations (kept ++ stale ++ x :: rest) s) := rfl
    have h := ih (put_associations (kept ++ stale ++ x :: rest) s) (kept ++ [x])
      (stale ++ [x]).tail a
    unfold calgo.remove_if_loop
    simp only [hstep, Bool.false_eq_true, if_false]
    refine ⟨?_, ?_⟩
    · rw [h.1]
      simp
    · rw [h.2]
      rfl

/-- With nothing to sever the scan changes nothing, in every state. -/
theorem erase_scan_nil_any (self : associated_collection) : erase_scan self [] = self := by
  have h := erase_scan_loop_nil self.associations_ self [] [] self.associations_
  unfold erase_scan calgo.erase_if
  rw [h.1, List.nil_append, h.2]
  rfl

theorem erase_range_of_empty_range (t : List (Nat × Nat)) (k : Nat)
    (h : flat_multimap.equal_range t k = []) : flat_multimap.erase_range t k = t := by
  unfold flat_multimap.equal_range at h
  unfold flat_multimap.erase_range
  rw [List.filter_eq_nil_iff] at h
  rw [List.filter_eq_self]
  intro v hv
  have := h v hv
  simpa using this

/-- The collapse loop over elements without associations drops every element it
reads and leaves the table and `foreign_keys_` alone. -/
theorem erase_collapse_loop_unlinked :
    ∀ (rest : List Element) (s : associated_collection) (kept : List Element)
      (dest : Element),
      (∀ e ∈ dest :: rest, flat_multimap.equal_range s.associations_ e.key = []) →
      (calgo.unique_loop erase_collapse_predicate s kept dest rest).2 = kept ∧
      (calgo.unique_loop erase_collapse_predicate s kept dest rest).1.associations_
        = s.associations_ ∧
      (calgo.unique_loop erase_collapse_predicate s kept dest rest).1.foreign_keys_
        = s.foreign_keys_ := by
  intro rest
  induction rest with
  | nil =>
    intro s kept dest _
    simp [calgo.unique_loop]
  | cons x rest ih =>
    intro s kept dest hempty
    have hd := hempty dest (List.mem_cons_self _ _)
    have hx := hempty x (List.mem_cons_of_mem _ (List.mem_cons_self _ _))
    have hcmp : compare_associations s dest.key x.key = true := by
      unfold compare_associations
      rw [hd, hx]
      rfl
    have hstep : erase_collapse_predicate s dest x = (true, retract_key s x.key) := by
      rw [erase_collapse_predicate_eq, if_pos hcmp]
    have htab : (retract_key s x.key).associations_ = s.associations_ :=
      erase_range_of_empty_range s.associations_ x.key hx
    have hfk : (retract_key s x.key).foreign_keys_ = s.foreign_keys_ := by
      show (flat_multimap.equal_range s.associations_ x.key).foldl
        (fun out r => flat_set.insert out (calgo.reverse r)) s.foreign_keys_ = s.foreign_keys_
      rw [hx]
      rfl
    have h := ih (retract_key s x.key) kept dest (by
      intro e he
      rw [htab]
      rcases List.mem_cons.mp he with he | he
      · rw [he]
        exact hd
      · exact hempty e (List.mem_cons_of_mem _ (List.mem_cons_of_mem _ he)))
    unfold calgo.unique_loop
    simp only [hstep, if_true]
    refine ⟨h.1, ?_, ?_⟩
    · rw [h.2.1, htab]
    · rw [h.2.2, hfk]

/-- More than sixteen elements without associations: the comparison handed to the
sort holds between every two of them, the partition `std::sort` starts with reads
past the end of the store, and `erase` with the empty set has no resulting
state. -/
theorem unlinked_beyond_sixteen_no_state (self : associated_collection)
    (hlong : 16 < self.collection_.length)
    (hunlinked : ∀ e ∈ self.collection_,
      flat_multimap.equal_range self.associations_ e.key = []) :
    calgo.unguarded_partition_pivot (erase_sort_predicate self) self.collection_ = none ∧
    erase_inverse_foreign self [] = none := by
  have hall : ∀ a ∈ self.collection_, ∀ b ∈ self.collection_,
      erase_sort_predicate self a b = true := by
    intro a ha b hb
    unfold erase_sort_predicate compare_associations
    rw [hunlinked a ha, hunlinked b hb]
    rfl
  have hoff := sort_runs_off self.collection_ (erase_sort_predicate self) hlong hall
  refine ⟨hoff.1, ?_⟩
  unfold erase_inverse_foreign erase_reorder
  rw [erase_scan_nil_any, hoff.2]

/-- Unlinked elements count as structural duplicates of each other: on a store of
at least one and at most sixteen elements, none with an association, `erase` with
the empty set leaves a state with exactly one element in the store, one of those
it held (the others are collapsed, two empty ranges comparing equal), with
nothing added to `foreign_keys_` and the table as it was. -/
theorem unlinked_elements_collapse (self : associated_collection)
    (hsome : self.collection_ ≠ []) (hshort : self.collection_.length ≤ 16)
    (hunlinked : ∀ e ∈ self.collection_,
      flat_multimap.equal_range self.associations_ e.key = []) :
    ∃ (r : associated_collection) (survivor : Element),
      erase_inverse_foreign self [] = some r ∧
      survivor ∈ self.collection_ ∧ r.collection_ = [survivor] ∧
      r.foreign_keys_ = self.foreign_keys_ ∧ r.associations_ = self.associations_ := by
  have hscan := erase_scan_nil_any self
  have hsort : calgo.sort (erase_scan self []).collection_
      (erase_sort_predicate (erase_scan self []))
      = some (calgo.insertion_sort (erase_sort_predicate self) [] self.collection_) := by
    rw [hscan]
    exact sort_of_short _ _ hshort
  have hperm : (calgo.insertion_sort (erase_sort_predicate self) [] self.collection_).Perm
      self.collection_ := by
    simpa using insertion_sort_perm (erase_sort_predicate self) self.collection_ []
  have hall := erase_inverse_foreign_of_sort self [] _ hsort
  rw [hscan] at hall
  cases hstore : calgo.insertion_sort (erase_sort_predicate self) [] self.collection_ with
  | nil =>
    exfalso
    rw [hstore] at hperm
    exact hsome (List.Perm.eq_nil hperm.symm)
  | cons first rest =>
    rw [hstore] at hall hperm
    have hmem : ∀ e ∈ first :: rest, e ∈ self.collection_ := by
      intro e he
      exact hperm.mem_iff.mp he
    have h := erase_collapse_loop_unlinked rest (put_collection (first :: rest) self) [first]
      first (by
        intro e he
        exact hunlinked e (hmem e he))
    refine ⟨_, first, hall, hmem first (List.mem_cons_self _ _), ?_, ?_, ?_⟩
    · show (calgo.unique_loop erase_collapse_predicate (put_collection (first :: rest) self)
        [first] first rest).2 = [first]
      exact h.1
    · show (calgo.unique_loop erase_collapse_predicate (put_collection (first :: rest) self)
        [first] first rest).1.foreign_keys_ = self.foreign_keys_
      exact h.2.2
    · show (calgo.unique_loop erase_collapse_predicate (put_collection (first :: rest) self)
        [first] first rest).1.associations_ = self.associations_
      exact h.2.1

/-- C31. Unlinked elements beyond sixteen leave no state: the store of the index
`unlinked_seventeen` holds seventeen elements, none of which has an association;
the comparison handed to the sort holds between every two of them, in both
directions, so that it does not order the store; the partition `std::sort` starts
with on more than sixteen elements reads past the end of the store, `std::sort`
has no result, and `erase` with the empty set has no resulting state, where one
element was to be left. -/
theorem unlinked_elements_no_state_beyond_sixteen :
    unlinked_seventeen.collection_.length = 17 ∧
    (∀ e ∈ unlinked_seventeen.collection_,
      flat_multimap.equal_range unlinked_seventeen.associations_ e.key = []) ∧
    erase_scan unlinked_seventeen [] = unlinked_seventeen ∧
    (∀ a ∈ unlinked_seventeen.collection_, ∀ b ∈ unlinked_seventeen.collection_,
      erase_sort_predicate unlinked_seventeen a b = true) ∧
    calgo.orders_strictly (erase_sort_predicate unlinked_seventeen)
      unlinked_seventeen.collection_ = false ∧
    calgo.unguarded_partition_pivot (erase_sort_predicate unlinked_seventeen)
      unlinked_seventeen.collection_ = none ∧
    erase_inverse_foreign unlinked_seventeen [] = none := by
  decide

/-- Three elements without associations, next to a table entry of a key no element
has: `erase` with the empty set leaves the element 3 alone in the store, the table
and `foreign_keys_` as they were. -/
theorem unlinked_three_collapse :
    erase_inverse_foreign unlinked_three [] = some ⟨[⟨3, 0⟩], [(9, 10)], [], [], []⟩ := by
  decide

end associated_collection
